import Mathlib

/-!
# Verification development for the BAML dynamic-schema / incremental-decoder core

The repository slice under verification contains the Python-facing tests and
generated client wrappers of BAML.  The core components (schema registry /
TypeBuilder, operation dispatch registry, incremental typed decoder,
convergence tracker, opaque media values) live outside the provided sources,
so each of them is modelled here from the specification, faithful to its
words, and the claims are settled against these models together with the
concrete constants that do appear in the sources (operation names, version
lists, target types).
-/

namespace BamlSpec

/-! ## Leaf paths into structured values -/

/-- One step of a path into a structured value: a named field of a class
value or a positional index of a collection. -/
inductive PathStep where
  | field (name : String)
  | index (i : Nat)
deriving DecidableEq, Repr

/-- A path from the root of a value to one of its leaves. -/
abbrev Path := List PathStep

/-! ## PartialValue model

Modelled from the spec: a PartialValue is "a typed value whose composite
fields may be absent or provisional; primitive leaves are either fully
resolved or absent".  `unres` is an absent / not-yet-resolved leaf, `failed`
is a leaf recorded as a local failure ("the leaf stays unresolved for the
remainder of the session"), `prim` is a fully resolved primitive leaf
(carrying its textual rendering), `obj` a composite class value and `arr` a
collection. -/
inductive PVal where
  | unres : PVal
  | failed : PVal
  | prim (s : String) : PVal
  | obj (fields : List (String × PVal)) : PVal
  | arr (elems : List PVal) : PVal
deriving Repr

mutual

/-- The resolved leaves of a PartialValue: every root-to-leaf path that ends
in a resolved primitive, together with the resolved rendering.  `unres` and
`failed` leaves contribute nothing. -/
def resolvedLeaves : PVal → List (Path × String)
  | .unres => []
  | .failed => []
  | .prim s => [([], s)]
  | .obj fs => fieldLeaves fs
  | .arr es => elemLeaves 0 es

/-- Resolved leaves of the field list of a composite value, each path
prefixed with its field name. -/
def fieldLeaves : List (String × PVal) → List (Path × String)
  | [] => []
  | (n, v) :: fs =>
      (resolvedLeaves v).map (fun pr => (PathStep.field n :: pr.1, pr.2)) ++ fieldLeaves fs

/-- Resolved leaves of the element list of a collection, each path prefixed
with its position. -/
def elemLeaves : Nat → List PVal → List (Path × String)
  | _, [] => []
  | i, v :: vs =>
      (resolvedLeaves v).map (fun pr => (PathStep.index i :: pr.1, pr.2)) ++ elemLeaves (i + 1) vs

end

/-! ## Monotone reconciliation (Value Convergence Tracker core)

Modelled from the spec: the decode session "never retracts a
previously-resolved leaf within one invocation (monotonic)"; a local failure
keeps the leaf unresolved for the remainder of the session.  `mergeVal old
new` reconciles the value recovered so far with the best-effort parse of the
newly accumulated payload, preferring already-resolved state. -/

mutual

/-- Reconcile the session state `old` with a freshly parsed candidate `new`:
a resolved primitive leaf is kept unchanged, a failed leaf stays failed, an
unresolved leaf adopts the candidate, and composites merge recursively
(field-wise by name, collections position-wise, never dropping state). -/
def mergeVal : PVal → PVal → PVal
  | .unres, n => n
  | .failed, _ => .failed
  | .prim s, _ => .prim s
  | .obj fs, .obj gs => .obj (mergeFields fs gs)
  | .obj fs, _ => .obj fs
  | .arr es, .arr ns => .arr (mergeElems es ns)
  | .arr es, _ => .arr es

/-- Field-wise merge: each existing field is merged with the candidate field
of the same name (or kept as is), and candidate-only fields are appended. -/
def mergeFields : List (String × PVal) → List (String × PVal) → List (String × PVal)
  | [], gs => gs
  | (n, v) :: fs, gs =>
      (n, mergeVal v (((gs.find? (fun g => g.1 = n)).map Prod.snd).getD .unres)) ::
        mergeFields fs (gs.filter (fun g => g.1 ≠ n))

/-- Position-wise merge of collection elements: shared positions merge,
extra already-recovered elements are kept, extra new elements are adopted. -/
def mergeElems : List PVal → List PVal → List PVal
  | [], ns => ns
  | e :: es, [] => e :: es
  | e :: es, n :: ns => mergeVal e n :: mergeElems es ns

end

/-! ## Decode sessions

Modelled from the spec: each increment grows the raw payload; a best-effort
structural parse of the accumulated payload produces a candidate, which is
reconciled into the session state; an updated PartialValue is emitted "only
if at least one leaf newly resolved or changed since the previous emission".
The parse heuristic itself is an external parameter: the convergence
guarantees must hold for every parse. -/

/-- The accumulated raw payload after each increment of the session. -/
def accumPayloads : String → List String → List String
  | _, [] => []
  | acc, i :: is =>
      let a := acc ++ i
      a :: accumPayloads a is

/-- The candidate PartialValues of a session: the best-effort parse applied
to each accumulated payload. -/
def sessionCandidates (parse : String → PVal) (incs : List String) : List PVal :=
  (accumPayloads "" incs).map parse

/-- Run the session, emitting a PartialValue after an increment exactly when
at least one leaf newly resolved or changed since the previous emission. -/
def emitSession (cur : PVal) : List PVal → List PVal
  | [] => []
  | c :: cs =>
      let m := mergeVal cur c
      if resolvedLeaves m = resolvedLeaves cur then emitSession m cs
      else m :: emitSession m cs

/-- The session state after all increments: the left fold of reconciliation
over the candidates, starting from the fully unresolved value. -/
def sessionState (parse : String → PVal) (incs : List String) : PVal :=
  (sessionCandidates parse incs).foldl mergeVal .unres

/-- The PartialValues emitted by a whole session. -/
def sessionEmitted (parse : String → PVal) (incs : List String) : List PVal :=
  emitSession .unres (sessionCandidates parse incs)

/-! ## Schema registry (TypeBuilder)

Modelled from the spec: the schema registry holds name-addressed class and
enum definitions, built incrementally, with insertion order significant and
metadata restricted to the recognized keys. -/

/-- A type reference of a property: primitive, class-name, enum-name,
optional-of, list-of, or union-of. -/
inductive TypeRef where
  | str : TypeRef
  | int : TypeRef
  | float : TypeRef
  | bool : TypeRef
  | classRef (name : String) : TypeRef
  | enumRef (name : String) : TypeRef
  | optional (t : TypeRef) : TypeRef
  | list (t : TypeRef) : TypeRef
  | union (a b : TypeRef) : TypeRef
deriving DecidableEq, Repr

/-- A property of a class: name, declared type (set by the builder, deferred
validation), and metadata entries in insertion order. -/
structure PropertyDef where
  name : String
  tyRef : Option TypeRef
  meta : List (String × String)
deriving DecidableEq, Repr

/-- A class definition: name and ordered properties. -/
structure ClassDef where
  name : String
  props : List PropertyDef
deriving DecidableEq, Repr

/-- An enum value: name and metadata entries in insertion order. -/
structure EnumValueDef where
  name : String
  meta : List (String × String)
deriving DecidableEq, Repr

/-- An enum definition: name and ordered values. -/
structure EnumDef where
  name : String
  values : List EnumValueDef
deriving DecidableEq, Repr

/-- The schema registry: ordered, name-addressed class and enum
definitions. -/
structure SchemaRegistry where
  classes : List ClassDef
  enums : List EnumDef
deriving DecidableEq, Repr

/-- Build-time errors of the registry. -/
inductive BuildError where
  | duplicateDefinition : BuildError
  | duplicateProperty : BuildError
  | duplicateValue : BuildError
  | unknownDefinition : BuildError
  | unsupportedMetadataKey : BuildError
deriving DecidableEq, Repr

/-- One builder call of a build sequence. -/
inductive BuildCmd where
  | defineClass (name : String) : BuildCmd
  | defineProperty (className propName : String) : BuildCmd
  | setPropertyType (className propName : String) (t : TypeRef) : BuildCmd
  | propertyMeta (className propName key value : String) : BuildCmd
  | defineEnum (name : String) : BuildCmd
  | defineValue (enumName valueName : String) : BuildCmd
  | valueMeta (enumName valueName key value : String) : BuildCmd
deriving DecidableEq, Repr

/-- The metadata keys recognized by the builder. -/
def recognizedMetaKeys : List String := ["alias", "description"]

/-- Update the first element carrying the given name, failing with
`UnknownDefinition` when absent. -/
def updateFirst {β : Type} (nameOf : β → String) (l : List β) (n : String)
    (f : β → Except BuildError β) : Except BuildError (List β) :=
  match l with
  | [] => .error .unknownDefinition
  | b :: rest =>
      if nameOf b = n then (f b).map (fun b' => b' :: rest)
      else (updateFirst nameOf rest n f).map (fun rest' => b :: rest')

/-- Update the first class of the given name. -/
def updateClassList (cs : List ClassDef) (n : String)
    (f : ClassDef → Except BuildError ClassDef) : Except BuildError (List ClassDef) :=
  updateFirst ClassDef.name cs n f

/-- Update the first enum of the given name. -/
def updateEnumList (es : List EnumDef) (n : String)
    (f : EnumDef → Except BuildError EnumDef) : Except BuildError (List EnumDef) :=
  updateFirst EnumDef.name es n f

/-- Update the first property of the given name. -/
def updatePropList (ps : List PropertyDef) (n : String)
    (f : PropertyDef → Except BuildError PropertyDef) :
    Except BuildError (List PropertyDef) :=
  updateFirst PropertyDef.name ps n f

/-- Update the first enum value of the given name. -/
def updateValueList (vs : List EnumValueDef) (n : String)
    (f : EnumValueDef → Except BuildError EnumValueDef) :
    Except BuildError (List EnumValueDef) :=
  updateFirst EnumValueDef.name vs n f

/-- Modelled from the spec: one builder call applied to the registry.
`defineClass`/`defineEnum` reject a name already used by a class or enum
with `DuplicateDefinition`; a property name reused within one class is
rejected with `DuplicateProperty` (enum values symmetrically); metadata keys
outside the recognized set are rejected with `UnsupportedMetadataKey`; type
references are recorded without validation (deferred to snapshot time). -/
def applyCmd (r : SchemaRegistry) : BuildCmd → Except BuildError SchemaRegistry
  | .defineClass n =>
      if n ∈ r.classes.map ClassDef.name ∨ n ∈ r.enums.map EnumDef.name then
        .error .duplicateDefinition
      else .ok ⟨r.classes ++ [⟨n, []⟩], r.enums⟩
  | .defineProperty cn pn =>
      (updateClassList r.classes cn (fun c =>
        if pn ∈ c.props.map PropertyDef.name then .error .duplicateProperty
        else .ok ⟨c.name, c.props ++ [⟨pn, none, []⟩]⟩)).map
        (fun cs => ⟨cs, r.enums⟩)
  | .setPropertyType cn pn t =>
      (updateClassList r.classes cn (fun c =>
        (updatePropList c.props pn (fun p => .ok ⟨p.name, some t, p.meta⟩)).map
          (fun ps => ⟨c.name, ps⟩))).map
        (fun cs => ⟨cs, r.enums⟩)
  | .propertyMeta cn pn k v =>
      if k ∈ recognizedMetaKeys then
        (updateClassList r.classes cn (fun c =>
          (updatePropList c.props pn
            (fun p => .ok ⟨p.name, p.tyRef, p.meta ++ [(k, v)]⟩)).map
            (fun ps => ⟨c.name, ps⟩))).map
          (fun cs => ⟨cs, r.enums⟩)
      else .error .unsupportedMetadataKey
  | .defineEnum n =>
      if n ∈ r.classes.map ClassDef.name ∨ n ∈ r.enums.map EnumDef.name then
        .error .duplicateDefinition
      else .ok ⟨r.classes, r.enums ++ [⟨n, []⟩]⟩
  | .defineValue en vn =>
      (updateEnumList r.enums en (fun e =>
        if vn ∈ e.values.map EnumValueDef.name then .error .duplicateValue
        else .ok ⟨e.name, e.values ++ [⟨vn, []⟩]⟩)).map
        (fun es => ⟨r.classes, es⟩)
  | .valueMeta en vn k v =>
      if k ∈ recognizedMetaKeys then
        (updateEnumList r.enums en (fun e =>
          (updateValueList e.values vn
            (fun w => .ok ⟨w.name, w.meta ++ [(k, v)]⟩)).map
            (fun vs => ⟨e.name, vs⟩))).map
          (fun es => ⟨r.classes, es⟩)
      else .error .unsupportedMetadataKey

/-- Run a whole build sequence from a starting registry. -/
def runBuild (r : SchemaRegistry) : List BuildCmd → Except BuildError SchemaRegistry
  | [] => .ok r
  | c :: cs =>
      match applyCmd r c with
      | .error e => .error e
      | .ok r' => runBuild r' cs

/-- The empty registry a builder starts from. -/
def emptyRegistry : SchemaRegistry := ⟨[], []⟩

/-! ## Textual schema description (`describe` / `str` of the builder)

Modelled from the spec: a deterministic rendering listing, in insertion
order, each class with its properties and their metadata, then each enum
with its values and their metadata.  The rendering is modelled as a list of
structured entries (one per rendered item) which is then joined to text. -/

/-- One rendered item of the description. -/
inductive DescribeEntry where
  | classHeader (name : String) : DescribeEntry
  | propertyLine (className propName : String) (ty : Option TypeRef) : DescribeEntry
  | enumHeader (name : String) : DescribeEntry
  | valueLine (enumName valueName : String) : DescribeEntry
  | metaLine (ownerPath : List String) (key value : String) : DescribeEntry
deriving DecidableEq, Repr

/-- Rendered items of one property: its line, then its metadata entries in
insertion order. -/
def propEntries (cn : String) (p : PropertyDef) : List DescribeEntry :=
  .propertyLine cn p.name p.tyRef ::
    p.meta.map (fun kv => .metaLine [cn, p.name] kv.1 kv.2)

/-- Rendered items of one class: its header, then its properties. -/
def classEntries (c : ClassDef) : List DescribeEntry :=
  .classHeader c.name :: (c.props.map (propEntries c.name)).flatten

/-- Rendered items of one enum value. -/
def valueEntries (en : String) (v : EnumValueDef) : List DescribeEntry :=
  .valueLine en v.name ::
    v.meta.map (fun kv => .metaLine [en, v.name] kv.1 kv.2)

/-- Rendered items of one enum: its header, then its values. -/
def enumEntries (e : EnumDef) : List DescribeEntry :=
  .enumHeader e.name :: (e.values.map (valueEntries e.name)).flatten

/-- The full description: every class in insertion order, then every enum in
insertion order. -/
def describeEntries (r : SchemaRegistry) : List DescribeEntry :=
  (r.classes.map classEntries).flatten ++ (r.enums.map enumEntries).flatten

/-- Textual rendering of a type reference. -/
def renderTypeRef : TypeRef → String
  | .str => "string"
  | .int => "int"
  | .float => "float"
  | .bool => "bool"
  | .classRef n => n
  | .enumRef n => n
  | .optional t => renderTypeRef t ++ "?"
  | .list t => renderTypeRef t ++ "[]"
  | .union a b => renderTypeRef a ++ " | " ++ renderTypeRef b

/-- Textual rendering of one description entry. -/
def renderEntry : DescribeEntry → String
  | .classHeader n => "class " ++ n
  | .propertyLine _ pn ty =>
      "  " ++ pn ++ " " ++ (match ty with | some t => renderTypeRef t | none => "<unset>")
  | .enumHeader n => "enum " ++ n
  | .valueLine _ vn => "  " ++ vn
  | .metaLine _ k v => "    @" ++ k ++ " " ++ v

/-- The deterministic description text. -/
def describeText (r : SchemaRegistry) : String :=
  String.intercalate "\n" ((describeEntries r).map renderEntry)

/-! ## Final values and finalization (end-of-input resolution pass)

Modelled from the spec: on end-of-input, the decoder performs a final
resolution pass over the last session state; an unresolved optional becomes
absent, an unresolved required field raises `IncompleteValue` naming the
unresolved path, an unrecognized enum token is a hard failure, and resolved
leaves are taken over unchanged (no re-interpretation). -/

/-- A fully finalized value: absent (for optional positions), a resolved
primitive leaf, a class value, or a collection. -/
inductive FVal where
  | absent : FVal
  | prim (s : String) : FVal
  | obj (fields : List (String × FVal)) : FVal
  | arr (elems : List FVal) : FVal
deriving Repr

mutual

/-- The resolved leaves of a FinalValue (absent positions contribute
nothing). -/
def fresolvedLeaves : FVal → List (Path × String)
  | .absent => []
  | .prim s => [([], s)]
  | .obj fs => ffieldLeaves fs
  | .arr es => felemLeaves 0 es

/-- Resolved leaves of the field list of a finalized class value. -/
def ffieldLeaves : List (String × FVal) → List (Path × String)
  | [] => []
  | (n, v) :: fs =>
      (fresolvedLeaves v).map (fun pr => (PathStep.field n :: pr.1, pr.2)) ++ ffieldLeaves fs

/-- Resolved leaves of the element list of a finalized collection. -/
def felemLeaves : Nat → List FVal → List (Path × String)
  | _, [] => []
  | i, v :: vs =>
      (fresolvedLeaves v).map (fun pr => (PathStep.index i :: pr.1, pr.2)) ++ felemLeaves (i + 1) vs

end

/-- Decode errors surfaced at finalization. -/
inductive DecodeError where
  | incompleteValue (path : Path) : DecodeError
  | decodeFailure (path : Path) (detail : String) : DecodeError
deriving DecidableEq, Repr

mutual

/-- Modelled from the spec: the final resolution pass.  An unresolved or
locally-failed position of optional type becomes absent; of required type it
raises `IncompleteValue` with its path.  Resolved primitive leaves are kept
unchanged; enum tokens must name a defined value; class values are resolved
property-by-property against the snapshot (missing properties are treated as
unresolved); collection elements are resolved left-to-right.  The fuel bound
only limits resolution depth and is irrelevant to every successful run. -/
def finalize (snap : SchemaRegistry) : Nat → TypeRef → Path → PVal → Except DecodeError FVal
  | 0, _, path, _ => .error (.decodeFailure path "resolution depth exhausted")
  | fuel + 1, t, path, v =>
      match t, v with
      | .optional _, .unres => .ok .absent
      | .optional _, .failed => .ok .absent
      | .optional t', _ => finalize snap fuel t' path v
      | .union a b, _ =>
          match finalize snap fuel a path v with
          | .ok f => .ok f
          | .error _ => finalize snap fuel b path v
      | .str, .prim s => .ok (.prim s)
      | .int, .prim s => .ok (.prim s)
      | .float, .prim s => .ok (.prim s)
      | .bool, .prim s => .ok (.prim s)
      | .enumRef n, .prim s =>
          match snap.enums.find? (fun e => e.name = n) with
          | none => .error (.decodeFailure path ("unknown enum " ++ n))
          | some ed =>
              if s ∈ ed.values.map EnumValueDef.name then .ok (.prim s)
              else .error (.decodeFailure path ("no enum value matches " ++ s))
      | .classRef n, .obj fs =>
          match snap.classes.find? (fun c => c.name = n) with
          | none => .error (.decodeFailure path ("unknown class " ++ n))
          | some cd =>
              if (fs.map Prod.fst).Nodup ∧
                  ∀ fv ∈ fs, ∃ p ∈ cd.props, p.name = fv.1 then
                (finalizeProps snap fuel cd.props path fs).map FVal.obj
              else .error (.decodeFailure path "unexpected fields")
      | .list t', .arr es => (finalizeElems snap fuel t' path 0 es).map FVal.arr
      | _, _ => .error (.incompleteValue path)

/-- Resolve the declared properties of a class, in declaration order, each
against the corresponding recovered field (or unresolved when missing). -/
def finalizeProps (snap : SchemaRegistry) :
    Nat → List PropertyDef → Path → List (String × PVal) →
    Except DecodeError (List (String × FVal))
  | _, [], _, _ => .ok []
  | fuel, p :: ps, path, fs =>
      match p.tyRef with
      | none => .error (.decodeFailure (path ++ [.field p.name]) "property type unset")
      | some pt =>
          match finalize snap fuel pt (path ++ [.field p.name])
              (((fs.find? (fun fv => fv.1 = p.name)).map Prod.snd).getD .unres) with
          | .error e => .error e
          | .ok f =>
              match finalizeProps snap fuel ps path fs with
              | .error e => .error e
              | .ok rest => .ok ((p.name, f) :: rest)

/-- Resolve the elements of a collection left-to-right. -/
def finalizeElems (snap : SchemaRegistry) :
    Nat → TypeRef → Path → Nat → List PVal → Except DecodeError (List FVal)
  | _, _, _, _, [] => .ok []
  | fuel, t, path, i, e :: es =>
      match finalize snap fuel t (path ++ [.index i]) e with
      | .error er => .error er
      | .ok f =>
          match finalizeElems snap fuel t path (i + 1) es with
          | .error er => .error er
          | .ok rest => .ok (f :: rest)

end

/-! ## Operation dispatch registry

Modelled from the spec: an operation maps a name to an ordered list of
version-identified implementation bindings; resolution with an explicit
version is an exact match or `UnknownVersion`; without one it selects the
first registered binding; an operation with no bindings fails with
`UnknownOperation`. -/

/-- An implementation binding: version identifier, target type, and the
decoded stream the externally supplied handle produces (its emitted
PartialValues and its FinalValue). -/
structure ImplementationBinding where
  version : String
  targetType : TypeRef
  interims : List PVal
  finalVal : FVal

/-- Dispatch errors. -/
inductive DispatchError where
  | unknownOperation : DispatchError
  | unknownVersion : DispatchError
  | duplicateVersion : DispatchError
deriving DecidableEq, Repr

/-- An operation: name and ordered implementation bindings (registration
order is priority). -/
structure Operation where
  name : String
  impls : List (String × ImplementationBinding)

/-- Register a binding, appending it; an already-registered version is
rejected with `DuplicateVersion`. -/
def registerImpl (op : Operation) (version : String) (b : ImplementationBinding) :
    Except DispatchError Operation :=
  if version ∈ op.impls.map Prod.fst then .error .duplicateVersion
  else .ok ⟨op.name, op.impls ++ [(version, b)]⟩

/-- Resolve which binding answers a call: explicit version is an exact match
or `UnknownVersion`; an omitted version selects the first registered
binding; no bindings at all is `UnknownOperation`. -/
def resolveOp (op : Operation) (version? : Option String) :
    Except DispatchError ImplementationBinding :=
  if op.impls.isEmpty then .error .unknownOperation
  else
    match version? with
    | some v =>
        match op.impls.find? (fun i => i.1 = v) with
        | some i => .ok i.2
        | none => .error .unknownVersion
    | none =>
        match op.impls.head? with
        | some i => .ok i.2
        | none => .error .unknownOperation

/-- The generated wrappers' `get_impl(version)`: resolution with an explicit
version. -/
def getImpl (op : Operation) (v : String) : Except DispatchError ImplementationBinding :=
  resolveOp op (some v)

/-- Whole-result call: resolve the binding and run it to completion,
returning its FinalValue. -/
def callOp (op : Operation) (version? : Option String) : Except DispatchError FVal :=
  (resolveOp op version?).map ImplementationBinding.finalVal

/-! ## Stream handles

Modelled from the spec: `stream` returns a single-use handle producing a
lazy sequence of PartialValues followed by exactly one FinalValue, then
terminating; further values require a new `stream` call. -/

/-- One event of a stream: an interim PartialValue or the FinalValue. -/
inductive StreamEvent where
  | interim (v : PVal) : StreamEvent
  | final (v : FVal) : StreamEvent
deriving Repr

/-- A stream handle: the events it has not yet produced. -/
structure StreamHandle where
  pending : List StreamEvent

/-- A fresh handle for a decode session: its PartialValues, then exactly one
FinalValue. -/
def mkStream (interims : List PVal) (fv : FVal) : StreamHandle :=
  ⟨interims.map StreamEvent.interim ++ [StreamEvent.final fv]⟩

/-- Pull one event from a handle; an exhausted handle produces nothing. -/
def nextEvent : StreamHandle → Option (StreamEvent × StreamHandle)
  | ⟨[]⟩ => none
  | ⟨e :: es⟩ => some (e, ⟨es⟩)

/-- Consume a handle to exhaustion: the events produced, and the spent
handle. -/
def drainStream : StreamHandle → List StreamEvent × StreamHandle
  | ⟨[]⟩ => ([], ⟨[]⟩)
  | ⟨e :: es⟩ =>
      let r := drainStream ⟨es⟩
      (e :: r.1, r.2)

/-- Whether an event is the FinalValue. -/
def isFinalEvent : StreamEvent → Bool
  | .final _ => true
  | .interim _ => false

/-- `stream`: resolve the binding and return a fresh handle over its decode
session. -/
def streamOp (op : Operation) (version? : Option String) :
    Except DispatchError StreamHandle :=
  (resolveOp op version?).map (fun b => mkStream b.interims b.finalVal)

/-! ## Opaque media values

Modelled from the spec: an opaque media value is constructed from a URL or
from a base64 payload plus a media-kind tag, compares by constructor
arguments, and persists/restores through a canonical byte serialization
(the pickle contract exercised by `test_pickle`). -/

/-- An opaque media value (the `baml_py.Image` contract). -/
inductive BamlMedia where
  | fromUrl (url : String) : BamlMedia
  | fromBase64 (mediaType : String) (payload : String) : BamlMedia
deriving DecidableEq, Repr

/-- Length-prefixed encoding of a string as a byte-like token list. -/
def encodeStr (s : String) : List Nat :=
  s.toList.length :: s.toList.map Char.toNat

/-- Decode one length-prefixed string, returning the remaining tokens. -/
def decodeStr : List Nat → Option (String × List Nat)
  | [] => none
  | n :: rest =>
      if n ≤ rest.length then
        some (String.mk ((rest.take n).map Char.ofNat), rest.drop n)
      else none

/-- Serialize a media value: a constructor tag followed by its
length-prefixed constructor arguments (the model of `pickle.dumps`). -/
def serializeMedia : BamlMedia → List Nat
  | .fromUrl u => 0 :: encodeStr u
  | .fromBase64 mt p => 1 :: (encodeStr mt ++ encodeStr p)

/-- Deserialize a media value, rejecting trailing garbage (the model of
`pickle.loads`). -/
def deserializeMedia (bytes : List Nat) : Option BamlMedia :=
  match bytes with
  | 0 :: rest =>
      match decodeStr rest with
      | some (u, []) => some (.fromUrl u)
      | _ => none
  | 1 :: rest =>
      match decodeStr rest with
      | some (mt, rest') =>
          match decodeStr rest' with
          | some (p, []) => some (.fromBase64 mt p)
          | _ => none
      | none => none
  | _ => none

/-! ## Concrete constants from the generated sources -/

/-- The operation declared by the generated `fx_functiontwo.py`: name
`FunctionTwo`, empty implementation-version list. -/
def functionTwo : Operation := ⟨"FunctionTwo", []⟩

/-- Modelled from the spec (the class definition module is outside the
given sources): the decode target class of `FnClassOptionalOutput2`, all of
whose properties are optional. -/
def classOptionalOutput2Def : ClassDef :=
  ⟨"ClassOptionalOutput2",
    [⟨"prop1", some (.optional .str), []⟩, ⟨"prop2", some (.optional .str), []⟩]⟩

/-- The schema snapshot containing the target class. -/
def fnClassOptionalOutput2Snap : SchemaRegistry := ⟨[classOptionalOutput2Def], []⟩

/-- The declared target type of `FnClassOptionalOutput2`:
`Optional[ClassOptionalOutput2]`, optional at the top level. -/
def fnClassOptionalOutput2Target : TypeRef := .optional (.classRef "ClassOptionalOutput2")

/-- The single registered binding `v1` of `FnClassOptionalOutput2`; its
decode session here ends in the absent FinalValue (a successful outcome of
the optional top-level target). -/
def fnClassOptionalOutput2V1 : ImplementationBinding :=
  ⟨"v1", fnClassOptionalOutput2Target, [], .absent⟩

/-- The operation declared by the generated `fx_fnclassoptionaloutput2.py`:
name `FnClassOptionalOutput2`, version list `["v1"]`. -/
def fnClassOptionalOutput2 : Operation :=
  ⟨"FnClassOptionalOutput2", [("v1", fnClassOptionalOutput2V1)]⟩

/-- Modelled from the spec: the stream-mode companion type of the target
class (the generated sources import it from the partial-types package),
every one of whose fields is optional. -/
structure ProvisionalClassOptionalOutput2 where
  prop1 : Option String
  prop2 : Option String
deriving DecidableEq, Repr

/-- View any decode-session value as the stream-mode companion type; total
because every field of the companion type is optional. -/
def toProvisionalClassOptionalOutput2 (v : PVal) : ProvisionalClassOptionalOutput2 :=
  match v with
  | .obj fs =>
      ⟨match (fs.find? (fun f => f.1 = "prop1")).map Prod.snd with
        | some (.prim s) => some s
        | _ => none,
       match (fs.find? (fun f => f.1 = "prop2")).map Prod.snd with
        | some (.prim s) => some s
        | _ => none⟩
  | _ => ⟨none, none⟩

/-- The structural invariant the builder maintains: class names are unique,
enum names are unique, no name is used by both a class and an enum, property
names are unique within each class, and value names are unique within each
enum. -/
def WfRegistry (r : SchemaRegistry) : Prop :=
  (r.classes.map ClassDef.name).Nodup ∧
  (r.enums.map EnumDef.name).Nodup ∧
  (∀ n, n ∈ r.classes.map ClassDef.name → n ∉ r.enums.map EnumDef.name) ∧
  (∀ c ∈ r.classes, (c.props.map PropertyDef.name).Nodup) ∧
  (∀ e ∈ r.enums, (e.values.map EnumValueDef.name).Nodup)

/-- Project a class-header entry to its name. -/
def classHeaderName? : DescribeEntry → Option String
  | .classHeader n => some n
  | _ => none

/-- The build sequence exercised by `test_type_builder_str`: class `User`
with properties `name` (alias and description), `age` (description) and
`email`, then enum `Status` with values `ACTIVE` (alias and description),
`INACTIVE` (alias) and `PENDING`. -/
def testBuildCmds : List BuildCmd :=
  [.defineClass "User",
   .defineProperty "User" "name", .setPropertyType "User" "name" .str,
   .propertyMeta "User" "name" "alias" "username",
   .propertyMeta "User" "name" "description" "The users full name",
   .defineProperty "User" "age", .setPropertyType "User" "age" .int,
   .propertyMeta "User" "age" "description" "Users age in years",
   .defineProperty "User" "email", .setPropertyType "User" "email" .str,
   .defineEnum "Status",
   .defineValue "Status" "ACTIVE",
   .valueMeta "Status" "ACTIVE" "alias" "active",
   .valueMeta "Status" "ACTIVE" "description" "User is active",
   .defineValue "Status" "INACTIVE",
   .valueMeta "Status" "INACTIVE" "alias" "inactive",
   .defineValue "Status" "PENDING"]

/-- The registry produced by `testBuildCmds`. -/
def testRegistry : SchemaRegistry :=
  ⟨[⟨"User",
      [⟨"name", some .str, [("alias", "username"), ("description", "The users full name")]⟩,
       ⟨"age", some .int, [("description", "Users age in years")]⟩,
       ⟨"email", some .str, []⟩]⟩],
   [⟨"Status",
      [⟨"ACTIVE", [("alias", "active"), ("description", "User is active")]⟩,
       ⟨"INACTIVE", [("alias", "inactive")]⟩,
       ⟨"PENDING", []⟩]⟩]⟩

/-- Project an enum-header entry to its name. -/
def enumHeaderName? : DescribeEntry → Option String
  | .enumHeader n => some n
  | _ => none

/-! ## Monotonicity of reconciliation -/

mutual

/-- Reconciliation never retracts or changes a resolved leaf: every resolved
leaf of the previous session state is a resolved leaf, with the same value,
of the merge with any candidate. -/
theorem mergeVal_mono (a b : PVal) :
    ∀ pr ∈ resolvedLeaves a, pr ∈ resolvedLeaves (mergeVal a b) := by
  intro pr hpr
  cases a with
  | unres => simp [resolvedLeaves] at hpr
  | failed => simp [resolvedLeaves] at hpr
  | prim s => simpa [mergeVal] using hpr
  | obj fs =>
      cases b with
      | obj gs =>
          simp only [resolvedLeaves, mergeVal] at hpr ⊢
          exact mergeFields_mono fs gs pr hpr
      | unres => simpa [mergeVal] using hpr
      | failed => simpa [mergeVal] using hpr
      | prim s => simpa [mergeVal] using hpr
      | arr ns => simpa [mergeVal] using hpr
  | arr es =>
      cases b with
      | arr ns =>
          simp only [resolvedLeaves, mergeVal] at hpr ⊢
          exact mergeElems_mono 0 es ns pr hpr
      | unres => simpa [mergeVal] using hpr
      | failed => simpa [mergeVal] using hpr
      | prim s => simpa [mergeVal] using hpr
      | obj gs => simpa [mergeVal] using hpr

/-- Field-wise merge preserves every resolved leaf of the existing fields. -/
theorem mergeFields_mono (fs gs : List (String × PVal)) :
    ∀ pr ∈ fieldLeaves fs, pr ∈ fieldLeaves (mergeFields fs gs) := by
  intro pr hpr
  cases fs with
  | nil => simp [fieldLeaves] at hpr
  | cons f fs' =>
      obtain ⟨n, v⟩ := f
      simp only [fieldLeaves, List.mem_append, List.mem_map] at hpr
      simp only [mergeFields, fieldLeaves, List.mem_append, List.mem_map]
      rcases hpr with ⟨q, hq, rfl⟩ | h
      · exact Or.inl ⟨q, mergeVal_mono v _ q hq, rfl⟩
      · exact Or.inr (mergeFields_mono fs' _ pr h)

/-- Position-wise merge preserves every resolved leaf of the existing
elements, at the same position. -/
theorem mergeElems_mono (i : Nat) (es ns : List PVal) :
    ∀ pr ∈ elemLeaves i es, pr ∈ elemLeaves i (mergeElems es ns) := by
  intro pr hpr
  cases es with
  | nil => simp [elemLeaves] at hpr
  | cons e es' =>
      cases ns with
      | nil => simpa [mergeElems] using hpr
      | cons n ns' =>
          simp only [elemLeaves, List.mem_append, List.mem_map] at hpr
          simp only [mergeElems, elemLeaves, List.mem_append, List.mem_map]
          rcases hpr with ⟨q, hq, rfl⟩ | h
          · exact Or.inl ⟨q, mergeVal_mono e n q hq, rfl⟩
          · exact Or.inr (mergeElems_mono (i + 1) es' ns' pr h)

end

/-- Every PartialValue emitted later in a session preserves every resolved
leaf of the state the session started from. -/
theorem emitSession_mem_mono (cs : List PVal) (cur b : PVal)
    (hb : b ∈ emitSession cur cs) :
    ∀ pr ∈ resolvedLeaves cur, pr ∈ resolvedLeaves b := by
  induction cs generalizing cur with
  | nil => simp [emitSession] at hb
  | cons c cs ih =>
      intro pr hpr
      simp only [emitSession] at hb
      by_cases h : resolvedLeaves (mergeVal cur c) = resolvedLeaves cur
      · rw [if_pos h] at hb
        exact ih (mergeVal cur c) hb pr (h ▸ hpr)
      · rw [if_neg h] at hb
        rcases List.mem_cons.mp hb with rfl | hb'
        · exact mergeVal_mono cur c pr hpr
        · exact ih (mergeVal cur c) hb' pr (mergeVal_mono cur c pr hpr)

/-- The emitted PartialValues of a session are pairwise monotone: every
resolved leaf of an earlier emission is a resolved leaf, with the same
value, of every later emission. -/
theorem emitSession_pairwise (cs : List PVal) (cur : PVal) :
    (emitSession cur cs).Pairwise
      (fun a b => ∀ pr ∈ resolvedLeaves a, pr ∈ resolvedLeaves b) := by
  induction cs generalizing cur with
  | nil => simp [emitSession]
  | cons c cs ih =>
      simp only [emitSession]
      by_cases h : resolvedLeaves (mergeVal cur c) = resolvedLeaves cur
      · rw [if_pos h]; exact ih _
      · rw [if_neg h]
        exact List.Pairwise.cons
          (fun b hb => emitSession_mem_mono cs (mergeVal cur c) b hb) (ih _)

/-- The resolved leaves of the final session state coincide with those of
the last emitted PartialValue (or of the initial state when nothing was
emitted). -/
theorem foldl_leaves_eq_lastEmitted (cs : List PVal) (cur : PVal) :
    resolvedLeaves (cs.foldl mergeVal cur) =
      resolvedLeaves ((emitSession cur cs).getLastD cur) := by
  induction cs generalizing cur with
  | nil => simp [emitSession]
  | cons c cs ih =>
      simp only [emitSession, List.foldl_cons]
      by_cases h : resolvedLeaves (mergeVal cur c) = resolvedLeaves cur
      · rw [if_pos h]
        rcases he : emitSession (mergeVal cur c) cs with _ | ⟨a, t⟩
        · have := ih (mergeVal cur c)
          rw [he] at this
          simpa [h] using this
        · have := ih (mergeVal cur c)
          rw [he] at this
          simpa [List.getLastD_cons] using this
      · rw [if_neg h]
        rw [List.getLastD_cons]
        exact ih (mergeVal cur c)

/-! ## Finalization preserves resolved leaves -/

/-- Membership in the resolved leaves of a field list, decomposed. -/
theorem fieldLeaves_mem (fs : List (String × PVal)) (p : Path) (s : String) :
    (p, s) ∈ fieldLeaves fs ↔
      ∃ n v q, (n, v) ∈ fs ∧ (q, s) ∈ resolvedLeaves v ∧ p = PathStep.field n :: q := by
  induction fs with
  | nil => simp [fieldLeaves]
  | cons f fs ih =>
      obtain ⟨n, v⟩ := f
      simp only [fieldLeaves, List.mem_append, List.mem_map, List.mem_cons, ih]
      constructor
      · rintro (⟨⟨q, s'⟩, hq, heq⟩ | ⟨n', v', q, hm, hr, hp⟩)
        · obtain ⟨hp, hs⟩ := Prod.mk.injEq .. ▸ heq
          exact ⟨n, v, q, Or.inl rfl, hs ▸ hq, hp.symm⟩
        · exact ⟨n', v', q, Or.inr hm, hr, hp⟩
      · rintro ⟨n', v', q, (heq | hm), hr, hp⟩
        · obtain ⟨hn, hv⟩ := Prod.mk.injEq .. ▸ heq
          exact Or.inl ⟨(q, s), hv ▸ hr, by simp [hp, hn]⟩
        · exact Or.inr ⟨n', v', q, hm, hr, hp⟩

/-- Membership in the resolved leaves of a finalized field list,
decomposed. -/
theorem ffieldLeaves_mem (fs : List (String × FVal)) (p : Path) (s : String) :
    (p, s) ∈ ffieldLeaves fs ↔
      ∃ n v q, (n, v) ∈ fs ∧ (q, s) ∈ fresolvedLeaves v ∧ p = PathStep.field n :: q := by
  induction fs with
  | nil => simp [ffieldLeaves]
  | cons f fs ih =>
      obtain ⟨n, v⟩ := f
      simp only [ffieldLeaves, List.mem_append, List.mem_map, List.mem_cons, ih]
      constructor
      · rintro (⟨⟨q, s'⟩, hq, heq⟩ | ⟨n', v', q, hm, hr, hp⟩)
        · obtain ⟨hp, hs⟩ := Prod.mk.injEq .. ▸ heq
          exact ⟨n, v, q, Or.inl rfl, hs ▸ hq, hp.symm⟩
        · exact ⟨n', v', q, Or.inr hm, hr, hp⟩
      · rintro ⟨n', v', q, (heq | hm), hr, hp⟩
        · obtain ⟨hn, hv⟩ := Prod.mk.injEq .. ▸ heq
          exact Or.inl ⟨(q, s), hv ▸ hr, by simp [hp, hn]⟩
        · exact Or.inr ⟨n', v', q, hm, hr, hp⟩

/-- Looking up a field by name in a list with distinct field names finds
exactly the member entry. -/
theorem find?_fst_eq_of_nodup {α : Type} (fs : List (String × α)) (n : String) (v : α)
    (hnd : (fs.map Prod.fst).Nodup) (hm : (n, v) ∈ fs) :
    fs.find? (fun fv => fv.1 = n) = some (n, v) := by
  induction fs with
  | nil => simp at hm
  | cons f fs ih =>
      obtain ⟨m, w⟩ := f
      simp only [List.map_cons, List.nodup_cons] at hnd
      rcases List.mem_cons.mp hm with heq | hmem
      · obtain ⟨hn, hv⟩ := Prod.mk.injEq .. ▸ heq
        simp [List.find?_cons, hn, hv]
      · have hne : m ≠ n := by
          intro hcontra
          exact hnd.1 (hcontra ▸ (List.mem_map.mpr ⟨(n, v), hmem, rfl⟩))
        have hd : (decide (m = n)) = false := by simp [hne]
        simp only [List.find?_cons, hd]
        exact ih hnd.2 hmem

mutual

/-- The final resolution pass never re-interprets a resolved leaf: every
resolved leaf of the session value appears, with the same value, among the
resolved leaves of a successfully produced FinalValue. -/
theorem finalize_pres (snap : SchemaRegistry) (fuel : Nat) (t : TypeRef) (path : Path)
    (v : PVal) (f : FVal) (h : finalize snap fuel t path v = .ok f) :
    ∀ pr ∈ resolvedLeaves v, pr ∈ fresolvedLeaves f := by
  cases fuel with
  | zero => simp [finalize] at h
  | succ fuel =>
      cases t with
      | optional t' =>
          cases v with
          | unres => intro pr hpr; simp [resolvedLeaves] at hpr
          | failed => intro pr hpr; simp [resolvedLeaves] at hpr
          | prim s => exact finalize_pres snap fuel t' path _ f (by simpa [finalize] using h)
          | obj fs => exact finalize_pres snap fuel t' path _ f (by simpa [finalize] using h)
          | arr es => exact finalize_pres snap fuel t' path _ f (by simpa [finalize] using h)
      | union a b =>
          simp only [finalize] at h
          split at h
          next fa ha =>
              simp only [Except.ok.injEq] at h
              exact h ▸ finalize_pres snap fuel a path v fa ha
          next e ha =>
              exact finalize_pres snap fuel b path v f h
      | str =>
          cases v with
          | prim s =>
              simp only [finalize, Except.ok.injEq] at h
              subst h
              intro pr hpr
              simpa [fresolvedLeaves, resolvedLeaves] using hpr
          | unres => simp [finalize] at h
          | failed => simp [finalize] at h
          | obj fs => simp [finalize] at h
          | arr es => simp [finalize] at h
      | int =>
          cases v with
          | prim s =>
              simp only [finalize, Except.ok.injEq] at h
              subst h
              intro pr hpr
              simpa [fresolvedLeaves, resolvedLeaves] using hpr
          | unres => simp [finalize] at h
          | failed => simp [finalize] at h
          | obj fs => simp [finalize] at h
          | arr es => simp [finalize] at h
      | float =>
          cases v with
          | prim s =>
              simp only [finalize, Except.ok.injEq] at h
              subst h
              intro pr hpr
              simpa [fresolvedLeaves, resolvedLeaves] using hpr
          | unres => simp [finalize] at h
          | failed => simp [finalize] at h
          | obj fs => simp [finalize] at h
          | arr es => simp [finalize] at h
      | bool =>
          cases v with
          | prim s =>
              simp only [finalize, Except.ok.injEq] at h
              subst h
              intro pr hpr
              simpa [fresolvedLeaves, resolvedLeaves] using hpr
          | unres => simp [finalize] at h
          | failed => simp [finalize] at h
          | obj fs => simp [finalize] at h
          | arr es => simp [finalize] at h
      | enumRef n =>
          cases v with
          | prim s =>
              simp only [finalize] at h
              split at h
              next => simp at h
              next ed hf =>
                  split at h
                  next =>
                      simp only [Except.ok.injEq] at h
                      subst h
                      intro pr hpr
                      simpa [fresolvedLeaves, resolvedLeaves] using hpr
                  next => simp at h
          | unres => simp [finalize] at h
          | failed => simp [finalize] at h
          | obj fs => simp [finalize] at h
          | arr es => simp [finalize] at h
      | classRef n =>
          cases v with
          | obj fs =>
              simp only [finalize] at h
              split at h
              next => simp at h
              next cd hc =>
                  split at h
                  next hcond =>
                      cases hp : finalizeProps snap fuel cd.props path fs with
                      | error e => rw [hp] at h; simp [Except.map] at h
                      | ok ffs =>
                          rw [hp] at h
                          simp only [Except.map, Except.ok.injEq] at h
                          subst h
                          intro pr hpr
                          obtain ⟨q, s⟩ := pr
                          simp only [resolvedLeaves] at hpr
                          obtain ⟨fn, fv, fq, hmem, hr, hpq⟩ :=
                            (fieldLeaves_mem fs q s).mp hpr
                          have hfind := find?_fst_eq_of_nodup fs fn fv hcond.1 hmem
                          have hex : ∃ p ∈ cd.props, p.name = fn := hcond.2 (fn, fv) hmem
                          have := finalizeProps_pres snap fuel cd.props path fs ffs hp
                            fn fv fq s hfind hex hr
                          simpa [fresolvedLeaves, hpq] using this
                  next hcond => simp at h
          | unres => simp [finalize] at h
          | failed => simp [finalize] at h
          | prim s => simp [finalize] at h
          | arr es => simp [finalize] at h
      | list t' =>
          cases v with
          | arr es =>
              simp only [finalize] at h
              cases he : finalizeElems snap fuel t' path 0 es with
              | error e => rw [he] at h; simp [Except.map] at h
              | ok fes =>
                  rw [he] at h
                  simp only [Except.map, Except.ok.injEq] at h
                  subst h
                  intro pr hpr
                  simp only [resolvedLeaves] at hpr
                  simp only [fresolvedLeaves]
                  exact finalizeElems_pres snap fuel t' path 0 es fes he 0 pr hpr
          | unres => simp [finalize] at h
          | failed => simp [finalize] at h
          | prim s => simp [finalize] at h
          | obj fs => simp [finalize] at h
termination_by (fuel, 0)

/-- Property-wise finalization preserves the leaves of every recovered field
that some declared property names. -/
theorem finalizeProps_pres (snap : SchemaRegistry) (fuel : Nat) (ps : List PropertyDef)
    (path : Path) (fs : List (String × PVal)) (ffs : List (String × FVal))
    (h : finalizeProps snap fuel ps path fs = .ok ffs)
    (n : String) (v : PVal) (q : Path) (s : String)
    (hfind : fs.find? (fun fv => fv.1 = n) = some (n, v))
    (hex : ∃ p ∈ ps, p.name = n)
    (hq : (q, s) ∈ resolvedLeaves v) :
    (PathStep.field n :: q, s) ∈ ffieldLeaves ffs := by
  cases ps with
  | nil => simp at hex
  | cons p ps2 =>
      simp only [finalizeProps] at h
      split at h
      next hty => simp at h
      next pt hty =>
          split at h
          next e hfz => simp at h
          next f1 hfz =>
              split at h
              next e hrest => simp at h
              next rest hrest =>
                  simp only [Except.ok.injEq] at h
                  subst h
                  by_cases hpn : p.name = n
                  · rw [hpn, hfind] at hfz
                    simp only [Option.map_some', Option.getD_some] at hfz
                    have hleaf := finalize_pres snap fuel pt _ v f1 hfz (q, s) hq
                    simp only [ffieldLeaves, List.mem_append, List.mem_map]
                    exact Or.inl ⟨(q, s), hleaf, by simp [hpn]⟩
                  · obtain ⟨p0, hp0, hp0n⟩ := hex
                    rcases List.mem_cons.mp hp0 with rfl | hp02
                    · exact absurd hp0n hpn
                    · have hrec := finalizeProps_pres snap fuel ps2 path fs rest hrest
                        n v q s hfind ⟨p0, hp02, hp0n⟩ hq
                      simp only [ffieldLeaves, List.mem_append]
                      exact Or.inr hrec
termination_by (fuel, 1 + ps.length)

/-- Element-wise finalization preserves every resolved leaf of the recovered
elements, position by position. -/
theorem finalizeElems_pres (snap : SchemaRegistry) (fuel : Nat) (t : TypeRef)
    (path : Path) (i : Nat) (es : List PVal) (fes : List FVal)
    (h : finalizeElems snap fuel t path i es = .ok fes) (j : Nat) :
    ∀ pr ∈ elemLeaves j es, pr ∈ felemLeaves j fes := by
  cases es with
  | nil =>
      simp only [finalizeElems, Except.ok.injEq] at h
      subst h
      intro pr hpr
      simp [elemLeaves] at hpr
  | cons e es2 =>
      simp only [finalizeElems] at h
      split at h
      next er hfz => simp at h
      next f1 hfz =>
          split at h
          next er hrest => simp at h
          next rest hrest =>
              simp only [Except.ok.injEq] at h
              subst h
              intro pr hpr
              simp only [elemLeaves, List.mem_append, List.mem_map] at hpr
              simp only [felemLeaves, List.mem_append, List.mem_map]
              rcases hpr with ⟨⟨q, s⟩, hq, heq⟩ | hpr2
              · exact Or.inl ⟨(q, s), finalize_pres snap fuel t _ e f1 hfz (q, s) hq, heq⟩
              · exact Or.inr (finalizeElems_pres snap fuel t path (i + 1) es2 rest hrest
                  (j + 1) pr hpr2)
termination_by (fuel, 1 + es.length)

end


/-! ## Claim C2: monotonicity of emitted PartialValues -/

/-- C2: for every valid increment sequence terminating in end-of-input (and
every best-effort parse heuristic), the PartialValues emitted within one
decode session are monotonic: every resolved leaf path of an earlier
emission stays resolved, with the same value, in every subsequent emission
of the same session. -/
theorem C2_emitted_monotonic (parse : String → PVal) (incs : List String) :
    (sessionEmitted parse incs).Pairwise
      (fun a b => ∀ pr ∈ resolvedLeaves a, pr ∈ resolvedLeaves b) :=
  emitSession_pairwise (sessionCandidates parse incs) .unres

/-! ## Claim C1: consistency of the FinalValue with the last PartialValue -/

/-- C1: for every decode session that completes successfully, every resolved
leaf of the last emitted PartialValue appears, with the same path and value,
among the resolved leaves of the FinalValue: no leaf is silently
re-interpreted at finalization. -/
theorem C1_final_consistent_with_last (parse : String → PVal) (incs : List String)
    (snap : SchemaRegistry) (t : TypeRef) (fuel : Nat) (lp : PVal) (f : FVal)
    (hlast : (sessionEmitted parse incs).getLast? = some lp)
    (hfin : finalize snap fuel t [] (sessionState parse incs) = .ok f) :
    ∀ pr ∈ resolvedLeaves lp, pr ∈ fresolvedLeaves f := by
  intro pr hpr
  have hfold := foldl_leaves_eq_lastEmitted (sessionCandidates parse incs) .unres
  have hgl : (sessionEmitted parse incs).getLastD PVal.unres = lp := by
    rw [List.getLastD_eq_getLast?, hlast]; rfl
  have hstate : resolvedLeaves (sessionState parse incs) = resolvedLeaves lp := by
    unfold sessionState
    unfold sessionEmitted at hgl
    rw [hfold, hgl]
  exact finalize_pres snap fuel t [] _ f hfin pr (hstate ▸ hpr)

/-- Witness for C1: a concrete two-increment session over a one-property
class, finishing in a FinalValue carrying the same resolved leaf. -/
theorem C1_witness :
    ([PathStep.field "name"], "Alice") ∈
      fresolvedLeaves (FVal.obj [("name", FVal.prim "Alice")]) :=
  C1_final_consistent_with_last
    (fun s => if s = "ab" then PVal.obj [("name", PVal.prim "Alice")] else PVal.obj [])
    ["a", "b"]
    ⟨[⟨"User", [⟨"name", some .str, []⟩]⟩], []⟩
    (.classRef "User") 4
    (PVal.obj [("name", PVal.prim "Alice")])
    (FVal.obj [("name", FVal.prim "Alice")])
    (by rfl) (by simp +decide [finalize, finalizeProps, sessionState, sessionCandidates,
      accumPayloads, mergeVal, mergeFields, Except.map])
    ([PathStep.field "name"], "Alice")
    (by simp [resolvedLeaves, fieldLeaves])

/-! ## Claim C3: default version resolution -/

/-- C3: resolving or calling an operation with at least one registered
implementation and no explicit version selects the first-registered binding
(registration order is priority); in particular an operation whose only
registered version is `v1` dispatches through `get_impl "v1"` to that same
binding. -/
theorem C3_first_registered_default (op : Operation) (v : String)
    (b : ImplementationBinding) (rest : List (String × ImplementationBinding))
    (himpls : op.impls = (v, b) :: rest) :
    resolveOp op none = .ok b ∧ callOp op none = .ok b.finalVal ∧
      (op.impls = [("v1", b)] →
        getImpl op "v1" = .ok b ∧ callOp op (some "v1") = .ok b.finalVal) := by
  refine ⟨?_, ?_, fun honly => ⟨?_, ?_⟩⟩
  · simp [resolveOp, himpls]
  · simp [callOp, resolveOp, himpls, Except.map]
  · simp [getImpl, resolveOp, honly, List.find?]
  · simp [callOp, resolveOp, honly, List.find?, Except.map]

/-- Witness for C3 at the generated `FnClassOptionalOutput2` operation,
whose only registered version is `v1`. -/
theorem C3_witness :
    resolveOp fnClassOptionalOutput2 none = .ok fnClassOptionalOutput2V1 ∧
      callOp fnClassOptionalOutput2 none = .ok fnClassOptionalOutput2V1.finalVal ∧
      (fnClassOptionalOutput2.impls = [("v1", fnClassOptionalOutput2V1)] →
        getImpl fnClassOptionalOutput2 "v1" = .ok fnClassOptionalOutput2V1 ∧
        callOp fnClassOptionalOutput2 (some "v1") = .ok fnClassOptionalOutput2V1.finalVal) :=
  C3_first_registered_default fnClassOptionalOutput2 "v1" fnClassOptionalOutput2V1 [] rfl

/-! ## Claim C4: operations without implementations cannot be called -/

/-- C4: an operation registered with an empty implementation list exists as
a named operation, but every attempt to resolve or call it — with or
without an explicit version — fails with `UnknownOperation` instead of
producing a FinalValue. -/
theorem C4_empty_impls_uncallable (op : Operation) (hempty : op.impls = []) :
    ∀ version? : Option String,
      resolveOp op version? = .error .unknownOperation ∧
        callOp op version? = .error .unknownOperation := by
  intro v?
  constructor
  · simp [resolveOp, hempty]
  · simp [callOp, resolveOp, hempty, Except.map]

/-- Witness for C4 at the generated `FunctionTwo` operation, declared with
the empty implementation list. -/
theorem C4_witness :
    resolveOp functionTwo none = .error .unknownOperation ∧
      callOp functionTwo none = .error .unknownOperation :=
  C4_empty_impls_uncallable functionTwo rfl none

/-! ## Media serialization round-trip (shared by C6 and C9) -/

/-- Decoding a length-prefixed string consumes exactly its encoding. -/
theorem decodeStr_encodeStr (s : String) (tl : List Nat) :
    decodeStr (encodeStr s ++ tl) = some (s, tl) := by
  have hlen : (s.toList.map Char.toNat).length = s.toList.length := List.length_map _ _
  simp only [encodeStr, decodeStr, List.cons_append]
  rw [if_pos (by simp)]
  have htake : (s.toList.map Char.toNat ++ tl).take s.toList.length = s.toList.map Char.toNat :=
    List.take_left' hlen
  have hdrop : (s.toList.map Char.toNat ++ tl).drop s.toList.length = tl :=
    List.drop_left' hlen
  rw [htake, hdrop]
  have hmap : (s.toList.map Char.toNat).map Char.ofNat = s.toList := by
    rw [List.map_map]
    have hco : Char.ofNat ∘ Char.toNat = id := funext Char.ofNat_toNat
    rw [hco, List.map_id]
  rw [hmap]
  have hmk : String.mk s.toList = s := rfl
  rw [hmk]

/-- Serializing then deserializing restores every media value exactly. -/
theorem mediaRoundTrip (m : BamlMedia) : deserializeMedia (serializeMedia m) = some m := by
  cases m with
  | fromUrl u =>
      have h := decodeStr_encodeStr u []
      rw [List.append_nil] at h
      simp [serializeMedia, deserializeMedia, h]
  | fromBase64 mt p =>
      have h1 := decodeStr_encodeStr mt (encodeStr p)
      have h2 := decodeStr_encodeStr p []
      rw [List.append_nil] at h2
      simp [serializeMedia, deserializeMedia, h1, h2]

/-! ## Claim C6: media value equality and persist/restore round-trip -/

/-- C6: opaque media values built from equal constructor arguments compare
equal (equality is exactly argument equality, for both the URL and the
base64-plus-media-kind constructors), and serializing then deserializing any
media value yields an equal value. -/
theorem C6_media_equality_and_roundtrip :
    (∀ u u', BamlMedia.fromUrl u = BamlMedia.fromUrl u' ↔ u = u') ∧
    (∀ mt p mt' p',
        BamlMedia.fromBase64 mt p = BamlMedia.fromBase64 mt' p' ↔ mt = mt' ∧ p = p') ∧
    (∀ m : BamlMedia, deserializeMedia (serializeMedia m) = some m) := by
  refine ⟨?_, ?_, mediaRoundTrip⟩
  · intro u u'; simp
  · intro mt p mt' p'; simp

/-! ## Claim C9: serialization is byte-stable -/

/-- C9: media serialization is byte-stable, not merely value-preserving:
serializing, deserializing those bytes, and serializing the result
reproduces exactly the original byte string
(`pickle.dumps(pickle.loads(p)) == p`). -/
theorem C9_serialization_byte_stable (m : BamlMedia) :
    (deserializeMedia (serializeMedia m)).map serializeMedia = some (serializeMedia m) := by
  rw [mediaRoundTrip m]
  rfl

/-! ## Claim C7: stream handles are single-use -/

/-- Draining a handle produces exactly its pending events and leaves the
spent handle empty. -/
theorem drainStream_spec (es : List StreamEvent) : drainStream ⟨es⟩ = (es, ⟨[]⟩) := by
  induction es with
  | nil => simp [drainStream]
  | cons e es ih => simp [drainStream, ih]

/-- C7: a handle returned by `stream` produces its PartialValues followed by
exactly one FinalValue and then terminates; the drained handle never
re-emits (its next event is none), while a fresh handle from a new `stream`
call — and only such a handle — starts the full sequence again. -/
theorem C7_stream_single_use (op : Operation) (version? : Option String)
    (b : ImplementationBinding) (h : resolveOp op version? = .ok b) :
    streamOp op version? = .ok (mkStream b.interims b.finalVal) ∧
      (drainStream (mkStream b.interims b.finalVal)).1 =
        b.interims.map StreamEvent.interim ++ [StreamEvent.final b.finalVal] ∧
      ((drainStream (mkStream b.interims b.finalVal)).1.filter isFinalEvent).length = 1 ∧
      nextEvent (drainStream (mkStream b.interims b.finalVal)).2 = none ∧
      nextEvent (mkStream b.interims b.finalVal) ≠ none := by
  refine ⟨?_, ?_, ?_, ?_, ?_⟩
  · simp [streamOp, h, Except.map]
  · simp [mkStream, drainStream_spec]
  · rw [mkStream, drainStream_spec]
    simp [List.filter_append, List.filter_map, isFinalEvent, Function.comp]
  · rw [mkStream, drainStream_spec]
    simp [nextEvent]
  · cases hb : b.interims with
    | nil => simp [mkStream, hb, nextEvent]
    | cons x xs => simp [mkStream, hb, nextEvent]

/-- Witness for C7 at the stream mode of `FnClassOptionalOutput2`. -/
theorem C7_witness :
    streamOp fnClassOptionalOutput2 none =
        .ok (mkStream fnClassOptionalOutput2V1.interims fnClassOptionalOutput2V1.finalVal) ∧
      (drainStream (mkStream fnClassOptionalOutput2V1.interims
            fnClassOptionalOutput2V1.finalVal)).1 =
        fnClassOptionalOutput2V1.interims.map StreamEvent.interim ++
          [StreamEvent.final fnClassOptionalOutput2V1.finalVal] ∧
      ((drainStream (mkStream fnClassOptionalOutput2V1.interims
            fnClassOptionalOutput2V1.finalVal)).1.filter isFinalEvent).length = 1 ∧
      nextEvent (drainStream (mkStream fnClassOptionalOutput2V1.interims
            fnClassOptionalOutput2V1.finalVal)).2 = none ∧
      nextEvent (mkStream fnClassOptionalOutput2V1.interims
            fnClassOptionalOutput2V1.finalVal) ≠ none :=
  C7_stream_single_use fnClassOptionalOutput2 none fnClassOptionalOutput2V1 rfl

/-- Property-wise finalization of all-optional declared properties succeeds
on an empty recovered object with every field absent. -/
theorem finalizeProps_allOptional (snap : SchemaRegistry) (fuel : Nat)
    (ps : List PropertyDef) (path : Path)
    (hopt : ∀ p ∈ ps, ∃ t', p.tyRef = some (.optional t')) :
    finalizeProps snap (fuel + 1) ps path [] =
      .ok (ps.map (fun p => (p.name, FVal.absent))) := by
  induction ps with
  | nil => simp [finalizeProps]
  | cons p ps ih =>
      obtain ⟨t', ht⟩ := hopt p (List.mem_cons_self p ps)
      simp only [finalizeProps, ht, List.find?_nil, Option.map_none', Option.getD_none]
      rw [show finalize snap (fuel + 1) (.optional t')
          (path ++ [PathStep.field p.name]) .unres = .ok .absent from by simp [finalize]]
      rw [ih (fun q hq => hopt q (List.mem_cons_of_mem p hq))]
      simp

/-- Finalizing a class all of whose properties are optional succeeds on an
empty recovered object, producing the value with every field absent. -/
theorem finalize_class_allOptional (snap : SchemaRegistry) (fuel : Nat) (n : String)
    (cd : ClassDef) (path : Path)
    (hfind : snap.classes.find? (fun c => c.name = n) = some cd)
    (hopt : ∀ p ∈ cd.props, ∃ t', p.tyRef = some (.optional t')) :
    finalize snap (fuel + 2) (.classRef n) path (.obj []) =
      .ok (.obj (cd.props.map (fun p => (p.name, FVal.absent)))) := by
  simp only [finalize, hfind]
  rw [if_pos (by simp)]
  rw [finalizeProps_allOptional snap fuel cd.props path hopt]
  rfl

/-! ## Claim C10: top-level optional targets may finalize to absent -/

/-- C10: a target type optional at the top level finalizes unresolved input
to the absent FinalValue as a *successful* outcome (never a failure); the
generated `FnClassOptionalOutput2` whole-result call successfully returns
the absent FinalValue; and the stream-mode companion type of its target
class has only optional fields — finalizing the class with nothing
recovered succeeds with every field absent, and any session value projects
totally onto the companion type (the fully-absent projection included). -/
theorem C10_toplevel_optional_absent_success :
    (∀ (snap : SchemaRegistry) (fuel : Nat) (t : TypeRef) (path : Path),
        finalize snap (fuel + 1) (.optional t) path .unres = .ok .absent) ∧
    callOp fnClassOptionalOutput2 none = .ok FVal.absent ∧
    finalize fnClassOptionalOutput2Snap 2 fnClassOptionalOutput2Target [] .unres =
      .ok .absent ∧
    finalize fnClassOptionalOutput2Snap 3 (.classRef "ClassOptionalOutput2") []
        (.obj []) = .ok (.obj [("prop1", .absent), ("prop2", .absent)]) ∧
    toProvisionalClassOptionalOutput2 PVal.unres = ⟨none, none⟩ := by
  refine ⟨?_, ?_, ?_, ?_, ?_⟩
  · intro snap fuel t path; simp [finalize]
  · rfl
  · simp [finalize, fnClassOptionalOutput2Target, fnClassOptionalOutput2Snap]
  · exact finalize_class_allOptional fnClassOptionalOutput2Snap 1 "ClassOptionalOutput2"
      classOptionalOutput2Def [] rfl (by
        intro p hp
        simp only [classOptionalOutput2Def, List.mem_cons, List.not_mem_nil, or_false] at hp
        rcases hp with rfl | rfl
        · exact ⟨.str, rfl⟩
        · exact ⟨.str, rfl⟩)
  · rfl

/-! ## Claim C8: duplicate definitions are rejected at the offending call -/

/-- Updating through the first element of a given name propagates the update
function's error unchanged. -/
theorem updateFirst_error {β : Type} (nameOf : β → String) (l : List β) (n : String)
    (f : β → Except BuildError β) (b : β) (e : BuildError)
    (hfind : l.find? (fun b' => nameOf b' = n) = some b) (hf : f b = .error e) :
    updateFirst nameOf l n f = .error e := by
  induction l with
  | nil => simp at hfind
  | cons b0 l ih =>
      rw [List.find?_cons] at hfind
      by_cases h0 : nameOf b0 = n
      · have hb0 : b0 = b := by simpa [h0] using hfind
        subst hb0
        simp [updateFirst, h0, hf, Except.map]
      · simp [h0] at hfind
        simp [updateFirst, h0, ih hfind, Except.map]

/-- C8: defining a class under a name already used by a class or by an enum
fails with `DuplicateDefinition`, and defining a second property under an
existing name on one class fails with `DuplicateProperty`; both errors are
produced by the offending builder call itself. -/
theorem C8_duplicate_rejected (r : SchemaRegistry) (n : String)
    (hdup : n ∈ r.classes.map ClassDef.name ∨ n ∈ r.enums.map EnumDef.name)
    (c : ClassDef) (pn : String)
    (hc : r.classes.find? (fun c' => c'.name = c.name) = some c)
    (hpn : pn ∈ c.props.map PropertyDef.name) :
    applyCmd r (.defineClass n) = .error .duplicateDefinition ∧
      applyCmd r (.defineProperty c.name pn) = .error .duplicateProperty := by
  constructor
  · simp only [applyCmd]
    rw [if_pos hdup]
  · simp only [applyCmd, updateClassList]
    rw [updateFirst_error ClassDef.name r.classes c.name _ c .duplicateProperty hc
      (by rw [if_pos hpn])]
    rfl

/-- Witness for C8: a registry holding class `User` (with property `name`)
and enum `Status`; redefining `Status` as a class and re-adding property
`name` both fail immediately. -/
theorem C8_witness :
    applyCmd ⟨[⟨"User", [⟨"name", none, []⟩]⟩], [⟨"Status", []⟩]⟩
        (.defineClass "Status") = .error .duplicateDefinition ∧
      applyCmd ⟨[⟨"User", [⟨"name", none, []⟩]⟩], [⟨"Status", []⟩]⟩
        (.defineProperty "User" "name") = .error .duplicateProperty :=
  C8_duplicate_rejected ⟨[⟨"User", [⟨"name", none, []⟩]⟩], [⟨"Status", []⟩]⟩ "Status"
    (by simp) ⟨"User", [⟨"name", none, []⟩]⟩ "name" (by simp [List.find?]) (by simp)

/-! ## The builder invariant is preserved by every build step -/

/-- A successful `updateFirst` with a name-preserving update function leaves
the name sequence unchanged. -/
theorem updateFirst_ok_names {β : Type} (nameOf : β → String) (l : List β) (n : String)
    (f : β → Except BuildError β) (l' : List β)
    (hup : updateFirst nameOf l n f = .ok l')
    (hf : ∀ b b', f b = .ok b' → nameOf b' = nameOf b) :
    l'.map nameOf = l.map nameOf := by
  induction l generalizing l' with
  | nil => simp [updateFirst] at hup
  | cons b0 l ih =>
      simp only [updateFirst] at hup
      by_cases h0 : nameOf b0 = n
      · rw [if_pos h0] at hup
        cases hf0 : f b0 with
        | error e => rw [hf0] at hup; simp [Except.map] at hup
        | ok b' =>
            rw [hf0] at hup
            simp only [Except.map, Except.ok.injEq] at hup
            subst hup
            simp [hf b0 b' hf0]
      · rw [if_neg h0] at hup
        cases hrec : updateFirst nameOf l n f with
        | error e => rw [hrec] at hup; simp [Except.map] at hup
        | ok rest' =>
            rw [hrec] at hup
            simp only [Except.map, Except.ok.injEq] at hup
            subst hup
            simp [ih rest' hrec]

/-- Every element of a successful `updateFirst` result is either an original
element or the update function's output on an original element. -/
theorem updateFirst_ok_mem {β : Type} (nameOf : β → String) (l : List β) (n : String)
    (f : β → Except BuildError β) (l' : List β)
    (hup : updateFirst nameOf l n f = .ok l') :
    ∀ b' ∈ l', b' ∈ l ∨ ∃ b ∈ l, f b = .ok b' := by
  induction l generalizing l' with
  | nil => simp [updateFirst] at hup
  | cons b0 l ih =>
      simp only [updateFirst] at hup
      by_cases h0 : nameOf b0 = n
      · rw [if_pos h0] at hup
        cases hf0 : f b0 with
        | error e => rw [hf0] at hup; simp [Except.map] at hup
        | ok bu =>
            rw [hf0] at hup
            simp only [Except.map, Except.ok.injEq] at hup
            subst hup
            intro b' hb'
            rcases List.mem_cons.mp hb' with rfl | hmem
            · exact Or.inr ⟨b0, List.mem_cons_self b0 l, hf0⟩
            · exact Or.inl (List.mem_cons_of_mem b0 hmem)
      · rw [if_neg h0] at hup
        cases hrec : updateFirst nameOf l n f with
        | error e => rw [hrec] at hup; simp [Except.map] at hup
        | ok rest' =>
            rw [hrec] at hup
            simp only [Except.map, Except.ok.injEq] at hup
            subst hup
            intro b' hb'
            rcases List.mem_cons.mp hb' with rfl | hmem
            · exact Or.inl (List.mem_cons_self b' l)
            · rcases ih rest' hrec b' hmem with hin | ⟨b, hb, hfb⟩
              · exact Or.inl (List.mem_cons_of_mem b0 hin)
              · exact Or.inr ⟨b, List.mem_cons_of_mem b0 hb, hfb⟩

/-- Appending an element with a fresh name keeps the name list nodup. -/
theorem nodup_names_append {α : Type} (l : List α) (f : α → String) (x : α)
    (hnd : (l.map f).Nodup) (hx : f x ∉ l.map f) :
    ((l ++ [x]).map f).Nodup := by
  rw [List.map_append, List.nodup_append]
  refine ⟨hnd, List.nodup_singleton _, ?_⟩
  intro a ha hb
  simp only [List.map_cons, List.map_nil, List.mem_singleton] at hb
  subst hb
  exact hx ha

/-- The empty registry satisfies the builder invariant. -/
theorem wf_empty : WfRegistry emptyRegistry :=
  ⟨List.nodup_nil, List.nodup_nil, by simp [emptyRegistry], by simp [emptyRegistry],
    by simp [emptyRegistry]⟩

/-- Every successful builder call preserves the builder invariant. -/
theorem applyCmd_wf (r r' : SchemaRegistry) (cmd : BuildCmd)
    (hw : WfRegistry r) (h : applyCmd r cmd = .ok r') : WfRegistry r' := by
  obtain ⟨hw1, hw2, hw3, hw4, hw5⟩ := hw
  cases cmd with
  | defineClass n =>
      simp only [applyCmd] at h
      split at h
      next => simp at h
      next hcond =>
          simp only [Except.ok.injEq] at h
          subst h
          push_neg at hcond
          refine ⟨nodup_names_append r.classes ClassDef.name ⟨n, []⟩ hw1 hcond.1, hw2, ?_, ?_, hw5⟩
          · intro m hm
            simp only [List.map_append, List.map_cons, List.map_nil, List.mem_append,
              List.mem_singleton] at hm
            rcases hm with hold | rfl
            · exact hw3 m hold
            · exact hcond.2
          · intro c hc
            rcases List.mem_append.mp hc with hold | hnew
            · exact hw4 c hold
            · simp only [List.mem_singleton] at hnew
              subst hnew
              exact List.nodup_nil
  | defineEnum n =>
      simp only [applyCmd] at h
      split at h
      next => simp at h
      next hcond =>
          simp only [Except.ok.injEq] at h
          subst h
          push_neg at hcond
          refine ⟨hw1, nodup_names_append r.enums EnumDef.name ⟨n, []⟩ hw2 hcond.2, ?_, hw4, ?_⟩
          · intro m hm
            simp only [List.map_append, List.map_cons, List.map_nil, List.mem_append,
              List.mem_singleton]
            push_neg
            exact ⟨hw3 m hm, fun hmn => hcond.1 (hmn ▸ hm)⟩
          · intro e he
            rcases List.mem_append.mp he with hold | hnew
            · exact hw5 e hold
            · simp only [List.mem_singleton] at hnew
              subst hnew
              exact List.nodup_nil
  | defineProperty cn pn =>
      simp only [applyCmd, updateClassList] at h
      cases hup : updateFirst ClassDef.name r.classes cn (fun c =>
          if pn ∈ c.props.map PropertyDef.name then .error .duplicateProperty
          else .ok ⟨c.name, c.props ++ [⟨pn, none, []⟩]⟩) with
      | error e => rw [hup] at h; simp [Except.map] at h
      | ok cs' =>
          rw [hup] at h
          simp only [Except.map, Except.ok.injEq] at h
          subst h
          have hnames : cs'.map ClassDef.name = r.classes.map ClassDef.name := by
            refine updateFirst_ok_names _ _ _ _ _ hup ?_
            intro b b' hb
            by_cases hmem : pn ∈ b.props.map PropertyDef.name
            · rw [if_pos hmem] at hb; simp at hb
            · rw [if_neg hmem] at hb
              simp only [Except.ok.injEq] at hb
              subst hb
              rfl
          refine ⟨by rw [hnames]; exact hw1, hw2,
            by intro m hm; rw [hnames] at hm; exact hw3 m hm, ?_, hw5⟩
          intro c hc
          rcases updateFirst_ok_mem _ _ _ _ _ hup c hc with hold | ⟨c0, hc0, hf0⟩
          · exact hw4 c hold
          · by_cases hmem : pn ∈ c0.props.map PropertyDef.name
            · rw [if_pos hmem] at hf0; simp at hf0
            · rw [if_neg hmem] at hf0
              simp only [Except.ok.injEq] at hf0
              subst hf0
              exact nodup_names_append c0.props PropertyDef.name ⟨pn, none, []⟩
                (hw4 c0 hc0) hmem
  | setPropertyType cn pn t =>
      simp only [applyCmd, updateClassList, updatePropList] at h
      cases hup : updateFirst ClassDef.name r.classes cn (fun c =>
          (updateFirst PropertyDef.name c.props pn
            (fun p => .ok ⟨p.name, some t, p.meta⟩)).map (fun ps => ⟨c.name, ps⟩)) with
      | error e => rw [hup] at h; simp [Except.map] at h
      | ok cs' =>
          rw [hup] at h
          simp only [Except.map, Except.ok.injEq] at h
          subst h
          have hpres : ∀ (b b' : ClassDef),
              (updateFirst PropertyDef.name b.props pn
                (fun p => Except.ok ⟨p.name, some t, p.meta⟩)).map
                (fun ps => (⟨b.name, ps⟩ : ClassDef)) = .ok b' →
              b'.name = b.name ∧ b'.props.map PropertyDef.name =
                b.props.map PropertyDef.name := by
            intro b b' hb
            cases hps : updateFirst PropertyDef.name b.props pn
                (fun p => Except.ok ⟨p.name, some t, p.meta⟩) with
            | error e => rw [hps] at hb; simp [Except.map] at hb
            | ok ps' =>
                rw [hps] at hb
                simp only [Except.map, Except.ok.injEq] at hb
                subst hb
                refine ⟨rfl, updateFirst_ok_names _ _ _ _ _ hps ?_⟩
                intro p p' hp
                simp only [Except.ok.injEq] at hp
                subst hp
                rfl
          have hnames : cs'.map ClassDef.name = r.classes.map ClassDef.name :=
            updateFirst_ok_names _ _ _ _ _ hup (fun b b' hb => (hpres b b' hb).1)
          refine ⟨by rw [hnames]; exact hw1, hw2,
            by intro m hm; rw [hnames] at hm; exact hw3 m hm, ?_, hw5⟩
          intro c hc
          rcases updateFirst_ok_mem _ _ _ _ _ hup c hc with hold | ⟨c0, hc0, hf0⟩
          · exact hw4 c hold
          · rw [(hpres c0 c hf0).2]
            exact hw4 c0 hc0
  | propertyMeta cn pn k v =>
      simp only [applyCmd, updateClassList, updatePropList] at h
      split at h
      next hkey =>
          cases hup : updateFirst ClassDef.name r.classes cn (fun c =>
              (updateFirst PropertyDef.name c.props pn
                (fun p => .ok ⟨p.name, p.tyRef, p.meta ++ [(k, v)]⟩)).map
                (fun ps => ⟨c.name, ps⟩)) with
          | error e => rw [hup] at h; simp [Except.map] at h
          | ok cs' =>
              rw [hup] at h
              simp only [Except.map, Except.ok.injEq] at h
              subst h
              have hpres : ∀ (b b' : ClassDef),
                  (updateFirst PropertyDef.name b.props pn
                    (fun p => Except.ok ⟨p.name, p.tyRef, p.meta ++ [(k, v)]⟩)).map
                    (fun ps => (⟨b.name, ps⟩ : ClassDef)) = .ok b' →
                  b'.name = b.name ∧ b'.props.map PropertyDef.name =
                    b.props.map PropertyDef.name := by
                intro b b' hb
                cases hps : updateFirst PropertyDef.name b.props pn
                    (fun p => Except.ok ⟨p.name, p.tyRef, p.meta ++ [(k, v)]⟩) with
                | error e => rw [hps] at hb; simp [Except.map] at hb
                | ok ps' =>
                    rw [hps] at hb
                    simp only [Except.map, Except.ok.injEq] at hb
                    subst hb
                    refine ⟨rfl, updateFirst_ok_names _ _ _ _ _ hps ?_⟩
                    intro p p' hp
                    simp only [Except.ok.injEq] at hp
                    subst hp
                    rfl
              have hnames : cs'.map ClassDef.name = r.classes.map ClassDef.name :=
                updateFirst_ok_names _ _ _ _ _ hup (fun b b' hb => (hpres b b' hb).1)
              refine ⟨by rw [hnames]; exact hw1, hw2,
                by intro m hm; rw [hnames] at hm; exact hw3 m hm, ?_, hw5⟩
              intro c hc
              rcases updateFirst_ok_mem _ _ _ _ _ hup c hc with hold | ⟨c0, hc0, hf0⟩
              · exact hw4 c hold
              · rw [(hpres c0 c hf0).2]
                exact hw4 c0 hc0
      next => simp at h
  | defineValue en vn =>
      simp only [applyCmd, updateEnumList] at h
      cases hup : updateFirst EnumDef.name r.enums en (fun e =>
          if vn ∈ e.values.map EnumValueDef.name then .error .duplicateValue
          else .ok ⟨e.name, e.values ++ [⟨vn, []⟩]⟩) with
      | error e => rw [hup] at h; simp [Except.map] at h
      | ok es' =>
          rw [hup] at h
          simp only [Except.map, Except.ok.injEq] at h
          subst h
          have hnames : es'.map EnumDef.name = r.enums.map EnumDef.name := by
            refine updateFirst_ok_names _ _ _ _ _ hup ?_
            intro b b' hb
            by_cases hmem : vn ∈ b.values.map EnumValueDef.name
            · rw [if_pos hmem] at hb; simp at hb
            · rw [if_neg hmem] at hb
              simp only [Except.ok.injEq] at hb
              subst hb
              rfl
          refine ⟨hw1, by rw [hnames]; exact hw2,
            by intro m hm; rw [hnames]; exact hw3 m hm, hw4, ?_⟩
          intro e he
          rcases updateFirst_ok_mem _ _ _ _ _ hup e he with hold | ⟨e0, he0, hf0⟩
          · exact hw5 e hold
          · by_cases hmem : vn ∈ e0.values.map EnumValueDef.name
            · rw [if_pos hmem] at hf0; simp at hf0
            · rw [if_neg hmem] at hf0
              simp only [Except.ok.injEq] at hf0
              subst hf0
              exact nodup_names_append e0.values EnumValueDef.name ⟨vn, []⟩
                (hw5 e0 he0) hmem
  | valueMeta en vn k v =>
      simp only [applyCmd, updateEnumList, updateValueList] at h
      split at h
      next hkey =>
          cases hup : updateFirst EnumDef.name r.enums en (fun e =>
              (updateFirst EnumValueDef.name e.values vn
                (fun w => .ok ⟨w.name, w.meta ++ [(k, v)]⟩)).map
                (fun vs => ⟨e.name, vs⟩)) with
          | error e => rw [hup] at h; simp [Except.map] at h
          | ok es' =>
              rw [hup] at h
              simp only [Except.map, Except.ok.injEq] at h
              subst h
              have hpres : ∀ (b b' : EnumDef),
                  (updateFirst EnumValueDef.name b.values vn
                    (fun w => Except.ok ⟨w.name, w.meta ++ [(k, v)]⟩)).map
                    (fun vs => (⟨b.name, vs⟩ : EnumDef)) = .ok b' →
                  b'.name = b.name ∧ b'.values.map EnumValueDef.name =
                    b.values.map EnumValueDef.name := by
                intro b b' hb
                cases hvs : updateFirst EnumValueDef.name b.values vn
                    (fun w => Except.ok ⟨w.name, w.meta ++ [(k, v)]⟩) with
                | error e => rw [hvs] at hb; simp [Except.map] at hb
                | ok vs' =>
                    rw [hvs] at hb
                    simp only [Except.map, Except.ok.injEq] at hb
                    subst hb
                    refine ⟨rfl, updateFirst_ok_names _ _ _ _ _ hvs ?_⟩
                    intro w w' hwv
                    simp only [Except.ok.injEq] at hwv
                    subst hwv
                    rfl
              have hnames : es'.map EnumDef.name = r.enums.map EnumDef.name :=
                updateFirst_ok_names _ _ _ _ _ hup (fun b b' hb => (hpres b b' hb).1)
              refine ⟨hw1, by rw [hnames]; exact hw2,
                by intro m hm; rw [hnames]; exact hw3 m hm, hw4, ?_⟩
              intro e he
              rcases updateFirst_ok_mem _ _ _ _ _ hup e he with hold | ⟨e0, he0, hf0⟩
              · exact hw5 e hold
              · rw [(hpres e0 e hf0).2]
                exact hw5 e0 he0
      next => simp at h

/-- A whole successful build from the empty registry satisfies the builder
invariant. -/
theorem runBuild_wf (cmds : List BuildCmd) (r0 r : SchemaRegistry)
    (hw : WfRegistry r0) (h : runBuild r0 cmds = .ok r) : WfRegistry r := by
  induction cmds generalizing r0 with
  | nil =>
      simp only [runBuild, Except.ok.injEq] at h
      subst h
      exact hw
  | cons c cs ih =>
      simp only [runBuild] at h
      cases hc : applyCmd r0 c with
      | error e => rw [hc] at h; simp at h
      | ok r1 =>
          rw [hc] at h
          exact ih r1 (applyCmd_wf r0 r1 c hw hc) h

/-! ## Counting rendered entries -/

/-- A name-guarded sum over a list with no matching name is zero. -/
theorem sum_if_zero {β : Type} (l : List β) (nameOf : β → String) (m : β → Nat)
    (n : String) (h : n ∉ l.map nameOf) :
    (l.map (fun b => if n = nameOf b then m b else 0)).sum = 0 := by
  induction l with
  | nil => rfl
  | cons b l ih =>
      simp only [List.map_cons, List.mem_cons, not_or] at h
      simp only [List.map_cons, List.sum_cons]
      rw [if_neg h.1, ih h.2]

/-- A name-guarded sum over a nodup-named list collapses to the single
matching element's contribution. -/
theorem sum_if_single {β : Type} (l : List β) (nameOf : β → String) (m : β → Nat)
    (n : String) (hnd : (l.map nameOf).Nodup) (b0 : β) (hb0 : b0 ∈ l)
    (hn : n = nameOf b0) :
    (l.map (fun b => if n = nameOf b then m b else 0)).sum = m b0 := by
  induction l with
  | nil => simp at hb0
  | cons b l ih =>
      simp only [List.map_cons, List.nodup_cons] at hnd
      simp only [List.map_cons, List.sum_cons]
      rcases List.mem_cons.mp hb0 with rfl | hb0'
      · rw [if_pos hn, sum_if_zero l nameOf m n (hn ▸ hnd.1), Nat.add_zero]
      · have hne : n ≠ nameOf b := by
          intro hcon
          exact hnd.1 (hcon ▸ List.mem_map.mpr ⟨b0, hb0', hn.symm⟩)
        rw [if_neg hne, ih hnd.2 hb0', Nat.zero_add]

/-- A sum of terms guarded by a constant condition. -/
theorem sum_ite_const {β : Type} (l : List β) (c : Prop) [Decidable c] (m : β → Nat) :
    (l.map (fun b => if c then m b else 0)).sum = if c then (l.map m).sum else 0 := by
  by_cases hc : c <;> simp [hc]

/-- Property renderings contain no class header. -/
theorem count_classHeader_propEntries (cn : String) (p : PropertyDef) (n : String) :
    (propEntries cn p).count (DescribeEntry.classHeader n) = 0 := by
  rw [List.count_eq_zero]
  simp [propEntries]

/-- Value renderings contain no class header. -/
theorem count_classHeader_valueEntries (en : String) (w : EnumValueDef) (n : String) :
    (valueEntries en w).count (DescribeEntry.classHeader n) = 0 := by
  rw [List.count_eq_zero]
  simp [valueEntries]

/-- A class rendering contains its header exactly once and no other class
header. -/
theorem count_classHeader_classEntries (c : ClassDef) (n : String) :
    (classEntries c).count (DescribeEntry.classHeader n) = if n = c.name then 1 else 0 := by
  simp only [classEntries, List.count_cons, List.count_flatten, List.map_map]
  rw [show (List.count (DescribeEntry.classHeader n)) ∘ propEntries c.name =
      (fun _ => (0 : Nat)) from funext fun p => count_classHeader_propEntries c.name p n]
  rcases eq_or_ne n c.name with hn | hn
  · subst hn; simp
  · simp [hn, Ne.symm hn]

/-- An enum rendering contains no class header. -/
theorem count_classHeader_enumEntries (e : EnumDef) (n : String) :
    (enumEntries e).count (DescribeEntry.classHeader n) = 0 := by
  rw [List.count_eq_zero]
  simp only [enumEntries, List.mem_cons, List.mem_flatten, List.mem_map]
  rintro (hcon | ⟨l, ⟨w, hw, rfl⟩, hmem⟩)
  · exact absurd hcon (by simp)
  · rw [← List.count_pos_iff, count_classHeader_valueEntries] at hmem
    exact absurd hmem (by simp)

/-- Class-header occurrences in the whole description, classwise. -/
theorem count_classHeader_describe (r : SchemaRegistry) (n : String) :
    (describeEntries r).count (DescribeEntry.classHeader n) =
      (r.classes.map (fun c => if n = c.name then 1 else 0)).sum := by
  simp only [describeEntries, List.count_append, List.count_flatten, List.map_map]
  rw [show (List.count (DescribeEntry.classHeader n)) ∘ classEntries =
      (fun c => if n = c.name then 1 else 0) from
      funext fun c => count_classHeader_classEntries c n]
  rw [show (List.count (DescribeEntry.classHeader n)) ∘ enumEntries =
      (fun _ => (0 : Nat)) from funext fun e => count_classHeader_enumEntries e n]
  simp

/-- Property renderings contain no enum header. -/
theorem count_enumHeader_propEntries (cn : String) (p : PropertyDef) (n : String) :
    (propEntries cn p).count (DescribeEntry.enumHeader n) = 0 := by
  rw [List.count_eq_zero]
  simp [propEntries]

/-- Value renderings contain no enum header. -/
theorem count_enumHeader_valueEntries (en : String) (w : EnumValueDef) (n : String) :
    (valueEntries en w).count (DescribeEntry.enumHeader n) = 0 := by
  rw [List.count_eq_zero]
  simp [valueEntries]

/-- A class rendering contains no enum header. -/
theorem count_enumHeader_classEntries (c : ClassDef) (n : String) :
    (classEntries c).count (DescribeEntry.enumHeader n) = 0 := by
  rw [List.count_eq_zero]
  simp only [classEntries, List.mem_cons, List.mem_flatten, List.mem_map]
  rintro (hcon | ⟨l, ⟨p, hp, rfl⟩, hmem⟩)
  · exact absurd hcon (by simp)
  · rw [← List.count_pos_iff, count_enumHeader_propEntries] at hmem
    exact absurd hmem (by simp)

/-- An enum rendering contains its header exactly once and no other enum
header. -/
theorem count_enumHeader_enumEntries (e : EnumDef) (n : String) :
    (enumEntries e).count (DescribeEntry.enumHeader n) = if n = e.name then 1 else 0 := by
  simp only [enumEntries, List.count_cons, List.count_flatten, List.map_map]
  rw [show (List.count (DescribeEntry.enumHeader n)) ∘ valueEntries e.name =
      (fun _ => (0 : Nat)) from funext fun w => count_enumHeader_valueEntries e.name w n]
  rcases eq_or_ne n e.name with hn | hn
  · subst hn; simp
  · simp [hn, Ne.symm hn]

/-- Enum-header occurrences in the whole description, enumwise. -/
theorem count_enumHeader_describe (r : SchemaRegistry) (n : String) :
    (describeEntries r).count (DescribeEntry.enumHeader n) =
      (r.enums.map (fun e => if n = e.name then 1 else 0)).sum := by
  simp only [describeEntries, List.count_append, List.count_flatten, List.map_map]
  rw [show (List.count (DescribeEntry.enumHeader n)) ∘ classEntries =
      (fun _ => (0 : Nat)) from funext fun c => count_enumHeader_classEntries c n]
  rw [show (List.count (DescribeEntry.enumHeader n)) ∘ enumEntries =
      (fun e => if n = e.name then 1 else 0) from
      funext fun e => count_enumHeader_enumEntries e n]
  simp

/-- A property rendering contains its own line exactly once. -/
theorem count_propertyLine_propEntries (cn : String) (p : PropertyDef)
    (cn' pn : String) (ty : Option TypeRef) :
    (propEntries cn p).count (DescribeEntry.propertyLine cn' pn ty) =
      if cn' = cn ∧ pn = p.name ∧ ty = p.tyRef then 1 else 0 := by
  simp only [propEntries, List.count_cons]
  rw [show (p.meta.map (fun kv => DescribeEntry.metaLine [cn, p.name] kv.1 kv.2)).count
      (DescribeEntry.propertyLine cn' pn ty) = 0 by
    rw [List.count_eq_zero]; simp]
  simp only [beq_iff_eq, DescribeEntry.propertyLine.injEq, Nat.zero_add]
  have hiff : (cn = cn' ∧ p.name = pn ∧ p.tyRef = ty) ↔
      (cn' = cn ∧ pn = p.name ∧ ty = p.tyRef) := by
    constructor <;> rintro ⟨a, b, c⟩ <;> exact ⟨a.symm, b.symm, c.symm⟩
  exact if_congr hiff rfl rfl

/-- A value rendering contains no property line. -/
theorem count_propertyLine_valueEntries (en : String) (w : EnumValueDef)
    (cn' pn : String) (ty : Option TypeRef) :
    (valueEntries en w).count (DescribeEntry.propertyLine cn' pn ty) = 0 := by
  rw [List.count_eq_zero]
  simp [valueEntries]

/-- Property-line occurrences in one class rendering. -/
theorem count_propertyLine_classEntries (c : ClassDef) (cn pn : String)
    (ty : Option TypeRef) :
    (classEntries c).count (DescribeEntry.propertyLine cn pn ty) =
      if cn = c.name then
        (c.props.map (fun p => if pn = p.name ∧ ty = p.tyRef then 1 else 0)).sum
      else 0 := by
  simp only [classEntries, List.count_cons, List.count_flatten, List.map_map]
  rw [show (List.count (DescribeEntry.propertyLine cn pn ty)) ∘ propEntries c.name =
      (fun p => if cn = c.name ∧ pn = p.name ∧ ty = p.tyRef then 1 else 0) from
      funext fun p => count_propertyLine_propEntries c.name p cn pn ty]
  rw [show (if (DescribeEntry.classHeader c.name ==
      DescribeEntry.propertyLine cn pn ty) = true then 1 else 0) = 0 by simp]
  rw [Nat.add_zero]
  rw [show (fun p : PropertyDef => if cn = c.name ∧ pn = p.name ∧ ty = p.tyRef
      then 1 else 0) = (fun p : PropertyDef => if cn = c.name then
        (if pn = p.name ∧ ty = p.tyRef then 1 else 0) else 0) from
      funext fun p => ite_and (cn = c.name) (pn = p.name ∧ ty = p.tyRef) 1 0]
  exact sum_ite_const c.props (cn = c.name) (fun p => if pn = p.name ∧ ty = p.tyRef then 1 else 0)

/-- An enum rendering contains no property line. -/
theorem count_propertyLine_enumEntries (e : EnumDef) (cn pn : String)
    (ty : Option TypeRef) :
    (enumEntries e).count (DescribeEntry.propertyLine cn pn ty) = 0 := by
  rw [List.count_eq_zero]
  simp only [enumEntries, List.mem_cons, List.mem_flatten, List.mem_map]
  rintro (hcon | ⟨l, ⟨w, hw, rfl⟩, hmem⟩)
  · exact absurd hcon (by simp)
  · rw [← List.count_pos_iff, count_propertyLine_valueEntries] at hmem
    exact absurd hmem (by simp)

/-- Property-line occurrences in the whole description, classwise. -/
theorem count_propertyLine_describe (r : SchemaRegistry) (cn pn : String)
    (ty : Option TypeRef) :
    (describeEntries r).count (DescribeEntry.propertyLine cn pn ty) =
      (r.classes.map (fun c => if cn = c.name then
        (c.props.map (fun p => if pn = p.name ∧ ty = p.tyRef then 1 else 0)).sum
        else 0)).sum := by
  simp only [describeEntries, List.count_append, List.count_flatten, List.map_map]
  rw [show (List.count (DescribeEntry.propertyLine cn pn ty)) ∘ classEntries =
      (fun c => if cn = c.name then
        (c.props.map (fun p => if pn = p.name ∧ ty = p.tyRef then 1 else 0)).sum
        else 0) from funext fun c => count_propertyLine_classEntries c cn pn ty]
  rw [show (List.count (DescribeEntry.propertyLine cn pn ty)) ∘ enumEntries =
      (fun _ => (0 : Nat)) from funext fun e => count_propertyLine_enumEntries e cn pn ty]
  simp

/-- A value rendering contains its own line exactly once. -/
theorem count_valueLine_valueEntries (en : String) (w : EnumValueDef)
    (en' vn : String) :
    (valueEntries en w).count (DescribeEntry.valueLine en' vn) =
      if en' = en ∧ vn = w.name then 1 else 0 := by
  simp only [valueEntries, List.count_cons]
  rw [show (w.meta.map (fun kv => DescribeEntry.metaLine [en, w.name] kv.1 kv.2)).count
      (DescribeEntry.valueLine en' vn) = 0 by
    rw [List.count_eq_zero]; simp]
  simp only [beq_iff_eq, DescribeEntry.valueLine.injEq, Nat.zero_add]
  have hiff : (en = en' ∧ w.name = vn) ↔ (en' = en ∧ vn = w.name) := by
    constructor <;> rintro ⟨a, b⟩ <;> exact ⟨a.symm, b.symm⟩
  exact if_congr hiff rfl rfl

/-- A property rendering contains no value line. -/
theorem count_valueLine_propEntries (cn : String) (p : PropertyDef) (en' vn : String) :
    (propEntries cn p).count (DescribeEntry.valueLine en' vn) = 0 := by
  rw [List.count_eq_zero]
  simp [propEntries]

/-- Value-line occurrences in one enum rendering. -/
theorem count_valueLine_enumEntries (e : EnumDef) (en vn : String) :
    (enumEntries e).count (DescribeEntry.valueLine en vn) =
      if en = e.name then
        (e.values.map (fun w => if vn = w.name then 1 else 0)).sum
      else 0 := by
  simp only [enumEntries, List.count_cons, List.count_flatten, List.map_map]
  rw [show (List.count (DescribeEntry.valueLine en vn)) ∘ valueEntries e.name =
      (fun w => if en = e.name ∧ vn = w.name then 1 else 0) from
      funext fun w => count_valueLine_valueEntries e.name w en vn]
  rw [show (if (DescribeEntry.enumHeader e.name ==
      DescribeEntry.valueLine en vn) = true then 1 else 0) = 0 by simp]
  rw [Nat.add_zero]
  rw [show (fun w : EnumValueDef => if en = e.name ∧ vn = w.name then 1 else 0) =
      (fun w : EnumValueDef => if en = e.name then (if vn = w.name then 1 else 0) else 0)
      from funext fun w => ite_and (en = e.name) (vn = w.name) 1 0]
  exact sum_ite_const e.values (en = e.name) (fun w => if vn = w.name then 1 else 0)

/-- A class rendering contains no value line. -/
theorem count_valueLine_classEntries (c : ClassDef) (en vn : String) :
    (classEntries c).count (DescribeEntry.valueLine en vn) = 0 := by
  rw [List.count_eq_zero]
  simp only [classEntries, List.mem_cons, List.mem_flatten, List.mem_map]
  rintro (hcon | ⟨l, ⟨p, hp, rfl⟩, hmem⟩)
  · exact absurd hcon (by simp)
  · rw [← List.count_pos_iff, count_valueLine_propEntries] at hmem
    exact absurd hmem (by simp)

/-- Value-line occurrences in the whole description, enumwise. -/
theorem count_valueLine_describe (r : SchemaRegistry) (en vn : String) :
    (describeEntries r).count (DescribeEntry.valueLine en vn) =
      (r.enums.map (fun e => if en = e.name then
        (e.values.map (fun w => if vn = w.name then 1 else 0)).sum
        else 0)).sum := by
  simp only [describeEntries, List.count_append, List.count_flatten, List.map_map]
  rw [show (List.count (DescribeEntry.valueLine en vn)) ∘ classEntries =
      (fun _ => (0 : Nat)) from funext fun c => count_valueLine_classEntries c en vn]
  rw [show (List.count (DescribeEntry.valueLine en vn)) ∘ enumEntries =
      (fun e => if en = e.name then
        (e.values.map (fun w => if vn = w.name then 1 else 0)).sum
        else 0) from funext fun e => count_valueLine_enumEntries e en vn]
  simp

/-- Counting a rendered metadata entry among rendered metadata entries is
counting the underlying key/value pair. -/
theorem count_map_metaLine (path : List String) (l : List (String × String))
    (k v : String) :
    (l.map (fun kv => DescribeEntry.metaLine path kv.1 kv.2)).count
      (DescribeEntry.metaLine path k v) = l.count (k, v) := by
  induction l with
  | nil => rfl
  | cons kv l ih =>
      obtain ⟨k0, v0⟩ := kv
      simp only [List.map_cons, List.count_cons, ih]
      congr 1
      by_cases hk : k0 = k ∧ v0 = v
      · simp [hk.1, hk.2]
      · have h1 : ¬(DescribeEntry.metaLine path k0 v0 = DescribeEntry.metaLine path k v) := by
          intro hcon
          injection hcon with a b c
          exact hk ⟨b, c⟩
        have h2 : ¬((k0, v0) = (k, v)) := by
          intro hcon
          injection hcon with a b
          exact hk ⟨a, b⟩
        simp [h1, h2]

/-- Metadata occurrences in one property rendering: exactly the supplied
entries at the property's own path. -/
theorem count_metaLine_propEntries (cn : String) (p : PropertyDef)
    (path : List String) (k v : String) :
    (propEntries cn p).count (DescribeEntry.metaLine path k v) =
      if path = [cn, p.name] then p.meta.count (k, v) else 0 := by
  simp only [propEntries, List.count_cons]
  rw [show (if (DescribeEntry.propertyLine cn p.name p.tyRef ==
      DescribeEntry.metaLine path k v) = true then 1 else 0) = 0 by simp]
  rw [Nat.add_zero]
  rcases eq_or_ne path [cn, p.name] with hp | hp
  · subst hp
    rw [if_pos rfl]
    exact count_map_metaLine [cn, p.name] p.meta k v
  · rw [if_neg hp, List.count_eq_zero]
    simp only [List.mem_map]
    rintro ⟨kv, hkv, hcon⟩
    injection hcon with h1 h2 h3
    exact hp h1.symm

/-- Metadata occurrences in one value rendering. -/
theorem count_metaLine_valueEntries (en : String) (w : EnumValueDef)
    (path : List String) (k v : String) :
    (valueEntries en w).count (DescribeEntry.metaLine path k v) =
      if path = [en, w.name] then w.meta.count (k, v) else 0 := by
  simp only [valueEntries, List.count_cons]
  rw [show (if (DescribeEntry.valueLine en w.name ==
      DescribeEntry.metaLine path k v) = true then 1 else 0) = 0 by simp]
  rw [Nat.add_zero]
  rcases eq_or_ne path [en, w.name] with hp | hp
  · subst hp
    rw [if_pos rfl]
    exact count_map_metaLine [en, w.name] w.meta k v
  · rw [if_neg hp, List.count_eq_zero]
    simp only [List.mem_map]
    rintro ⟨kv, hkv, hcon⟩
    injection hcon with h1 h2 h3
    exact hp h1.symm

/-- Metadata occurrences in one class rendering, propertywise. -/
theorem count_metaLine_classEntries (c : ClassDef) (path : List String) (k v : String) :
    (classEntries c).count (DescribeEntry.metaLine path k v) =
      (c.props.map (fun p =>
        if path = [c.name, p.name] then p.meta.count (k, v) else 0)).sum := by
  simp only [classEntries, List.count_cons, List.count_flatten, List.map_map]
  rw [show (List.count (DescribeEntry.metaLine path k v)) ∘ propEntries c.name =
      (fun p => if path = [c.name, p.name] then p.meta.count (k, v) else 0) from
      funext fun p => count_metaLine_propEntries c.name p path k v]
  simp

/-- Metadata occurrences in one enum rendering, valuewise. -/
theorem count_metaLine_enumEntries (e : EnumDef) (path : List String) (k v : String) :
    (enumEntries e).count (DescribeEntry.metaLine path k v) =
      (e.values.map (fun w =>
        if path = [e.name, w.name] then w.meta.count (k, v) else 0)).sum := by
  simp only [enumEntries, List.count_cons, List.count_flatten, List.map_map]
  rw [show (List.count (DescribeEntry.metaLine path k v)) ∘ valueEntries e.name =
      (fun w => if path = [e.name, w.name] then w.meta.count (k, v) else 0) from
      funext fun w => count_metaLine_valueEntries e.name w path k v]
  simp

/-- Metadata occurrences in the whole description. -/
theorem count_metaLine_describe (r : SchemaRegistry) (path : List String) (k v : String) :
    (describeEntries r).count (DescribeEntry.metaLine path k v) =
      (r.classes.map (fun c => (c.props.map (fun p =>
        if path = [c.name, p.name] then p.meta.count (k, v) else 0)).sum)).sum +
      (r.enums.map (fun e => (e.values.map (fun w =>
        if path = [e.name, w.name] then w.meta.count (k, v) else 0)).sum)).sum := by
  simp only [describeEntries, List.count_append, List.count_flatten, List.map_map]
  rw [show (List.count (DescribeEntry.metaLine path k v)) ∘ classEntries =
      (fun c => (c.props.map (fun p =>
        if path = [c.name, p.name] then p.meta.count (k, v) else 0)).sum) from
      funext fun c => count_metaLine_classEntries c path k v]
  rw [show (List.count (DescribeEntry.metaLine path k v)) ∘ enumEntries =
      (fun e => (e.values.map (fun w =>
        if path = [e.name, w.name] then w.meta.count (k, v) else 0)).sum) from
      funext fun e => count_metaLine_enumEntries e path k v]

/-! ## Rendering order -/

/-- A class rendering's class headers are exactly its own name. -/
theorem filterMap_classHeader_classEntries (c : ClassDef) :
    (classEntries c).filterMap classHeaderName? = [c.name] := by
  have hz : ((c.props.map (propEntries c.name)).flatten).filterMap classHeaderName? = [] := by
    rw [List.filterMap_eq_nil_iff]
    intro a ha
    simp only [List.mem_flatten, List.mem_map] at ha
    obtain ⟨l, ⟨p, hp, rfl⟩, hmem⟩ := ha
    simp only [propEntries, List.mem_cons, List.mem_map] at hmem
    rcases hmem with rfl | ⟨kv, hkv, rfl⟩
    · rfl
    · rfl
  simp [classEntries, classHeaderName?, hz]

/-- An enum rendering contributes no class header. -/
theorem filterMap_classHeader_enumEntries (e : EnumDef) :
    (enumEntries e).filterMap classHeaderName? = [] := by
  rw [List.filterMap_eq_nil_iff]
  intro a ha
  simp only [enumEntries, List.mem_cons, List.mem_flatten, List.mem_map] at ha
  rcases ha with rfl | ⟨l, ⟨w, hw, rfl⟩, hmem⟩
  · rfl
  · simp only [valueEntries, List.mem_cons, List.mem_map] at hmem
    rcases hmem with rfl | ⟨kv, hkv, rfl⟩ <;> rfl

/-- An enum rendering's enum headers are exactly its own name. -/
theorem filterMap_enumHeader_enumEntries (e : EnumDef) :
    (enumEntries e).filterMap enumHeaderName? = [e.name] := by
  have hz : ((e.values.map (valueEntries e.name)).flatten).filterMap enumHeaderName? = [] := by
    rw [List.filterMap_eq_nil_iff]
    intro a ha
    simp only [List.mem_flatten, List.mem_map] at ha
    obtain ⟨l, ⟨w, hw, rfl⟩, hmem⟩ := ha
    simp only [valueEntries, List.mem_cons, List.mem_map] at hmem
    rcases hmem with rfl | ⟨kv, hkv, rfl⟩
    · rfl
    · rfl
  simp [enumEntries, enumHeaderName?, hz]

/-- A class rendering contributes no enum header. -/
theorem filterMap_enumHeader_classEntries (c : ClassDef) :
    (classEntries c).filterMap enumHeaderName? = [] := by
  rw [List.filterMap_eq_nil_iff]
  intro a ha
  simp only [classEntries, List.mem_cons, List.mem_flatten, List.mem_map] at ha
  rcases ha with rfl | ⟨l, ⟨p, hp, rfl⟩, hmem⟩
  · rfl
  · simp only [propEntries, List.mem_cons, List.mem_map] at hmem
    rcases hmem with rfl | ⟨kv, hkv, rfl⟩ <;> rfl

/-- The description lists class names exactly in registry (insertion)
order. -/
theorem filterMap_classHeader_describe (r : SchemaRegistry) :
    (describeEntries r).filterMap classHeaderName? = r.classes.map ClassDef.name := by
  simp only [describeEntries, List.filterMap_append]
  have h1 : ∀ cs : List ClassDef,
      ((cs.map classEntries).flatten).filterMap classHeaderName? =
        cs.map ClassDef.name := by
    intro cs
    induction cs with
    | nil => rfl
    | cons c cs ih => simp [List.filterMap_append, filterMap_classHeader_classEntries c, ih]
  have h2 : ∀ es : List EnumDef,
      ((es.map enumEntries).flatten).filterMap classHeaderName? = [] := by
    intro es
    induction es with
    | nil => rfl
    | cons e es ih => simp [List.filterMap_append, filterMap_classHeader_enumEntries e, ih]
  rw [h1, h2, List.append_nil]

/-- The description lists enum names exactly in registry (insertion)
order. -/
theorem filterMap_enumHeader_describe (r : SchemaRegistry) :
    (describeEntries r).filterMap enumHeaderName? = r.enums.map EnumDef.name := by
  simp only [describeEntries, List.filterMap_append]
  have h1 : ∀ cs : List ClassDef,
      ((cs.map classEntries).flatten).filterMap enumHeaderName? = [] := by
    intro cs
    induction cs with
    | nil => rfl
    | cons c cs ih => simp [List.filterMap_append, filterMap_enumHeader_classEntries c, ih]
  have h2 : ∀ es : List EnumDef,
      ((es.map enumEntries).flatten).filterMap enumHeaderName? =
        es.map EnumDef.name := by
    intro es
    induction es with
    | nil => rfl
    | cons e es ih => simp [List.filterMap_append, filterMap_enumHeader_enumEntries e, ih]
  rw [h1, h2, List.nil_append]

/-! ## Claim C5: the description is complete, exact and ordered -/

/-- C5: for every schema built by a successful sequence of class / enum /
property / value / metadata definitions, the textual description rendered
afterwards contains every defined class name, enum name, property name and
enum value name exactly once, renders every supplied alias/description
metadata entry exactly as often as it was supplied, and lists classes and
enums deterministically in insertion order (the registry preserves
insertion order, and `describeEntries` is a pure function of the registry,
hence deterministic).  Counting is at the granularity of rendered entries,
which is how `describe` emits names. -/
theorem C5_describe_complete (cmds : List BuildCmd) (r : SchemaRegistry)
    (hbuild : runBuild emptyRegistry cmds = .ok r) :
    (∀ c ∈ r.classes, (describeEntries r).count (.classHeader c.name) = 1) ∧
    (∀ e ∈ r.enums, (describeEntries r).count (.enumHeader e.name) = 1) ∧
    (∀ c ∈ r.classes, ∀ p ∈ c.props,
        (describeEntries r).count (.propertyLine c.name p.name p.tyRef) = 1) ∧
    (∀ e ∈ r.enums, ∀ w ∈ e.values,
        (describeEntries r).count (.valueLine e.name w.name) = 1) ∧
    (∀ c ∈ r.classes, ∀ p ∈ c.props, ∀ k v,
        (describeEntries r).count (.metaLine [c.name, p.name] k v) =
          p.meta.count (k, v)) ∧
    (∀ e ∈ r.enums, ∀ w ∈ e.values, ∀ k v,
        (describeEntries r).count (.metaLine [e.name, w.name] k v) =
          w.meta.count (k, v)) ∧
    (describeEntries r).filterMap classHeaderName? = r.classes.map ClassDef.name ∧
    (describeEntries r).filterMap enumHeaderName? = r.enums.map EnumDef.name := by
  obtain ⟨hw1, hw2, hw3, hw4, hw5⟩ := runBuild_wf cmds emptyRegistry r wf_empty hbuild
  refine ⟨?_, ?_, ?_, ?_, ?_, ?_,
    filterMap_classHeader_describe r, filterMap_enumHeader_describe r⟩
  · intro c hc
    rw [count_classHeader_describe]
    exact sum_if_single r.classes ClassDef.name (fun _ => 1) c.name hw1 c hc rfl
  · intro e he
    rw [count_enumHeader_describe]
    exact sum_if_single r.enums EnumDef.name (fun _ => 1) e.name hw2 e he rfl
  · intro c hc p hp
    rw [count_propertyLine_describe,
      sum_if_single r.classes ClassDef.name _ c.name hw1 c hc rfl]
    rw [show (fun q : PropertyDef => if p.name = q.name ∧ p.tyRef = q.tyRef
        then 1 else 0) = (fun q : PropertyDef => if p.name = q.name then
          (if p.tyRef = q.tyRef then 1 else 0) else 0) from
        funext fun q => ite_and (p.name = q.name) (p.tyRef = q.tyRef) 1 0]
    rw [sum_if_single c.props PropertyDef.name _ p.name (hw4 c hc) p hp rfl]
    simp
  · intro e he w hw
    rw [count_valueLine_describe,
      sum_if_single r.enums EnumDef.name _ e.name hw2 e he rfl]
    exact sum_if_single e.values EnumValueDef.name (fun _ => 1) w.name (hw5 e he) w hw rfl
  · intro c hc p hp k v
    rw [count_metaLine_describe]
    have henz : (r.enums.map (fun e => (e.values.map (fun w =>
        if [c.name, p.name] = [e.name, w.name] then w.meta.count (k, v) else 0)).sum)).sum
        = 0 := by
      apply List.sum_eq_zero
      intro x hx
      simp only [List.mem_map] at hx
      obtain ⟨e, he, rfl⟩ := hx
      apply List.sum_eq_zero
      intro y hy
      simp only [List.mem_map] at hy
      obtain ⟨w, hw, rfl⟩ := hy
      rw [if_neg]
      intro hcon
      injection hcon with h1 _
      have hcm : c.name ∈ r.classes.map ClassDef.name := List.mem_map.mpr ⟨c, hc, rfl⟩
      have hem : e.name ∈ r.enums.map EnumDef.name := List.mem_map.mpr ⟨e, he, rfl⟩
      rw [← h1] at hem
      exact hw3 c.name hcm hem
    rw [henz, Nat.add_zero]
    have htrans : (fun c' : ClassDef => (c'.props.map (fun q =>
        if [c.name, p.name] = [c'.name, q.name] then q.meta.count (k, v) else 0)).sum) =
      (fun c' : ClassDef => if c.name = c'.name then
        (c'.props.map (fun q =>
          if p.name = q.name then q.meta.count (k, v) else 0)).sum else 0) := by
      funext c'
      rw [show (fun q : PropertyDef => if [c.name, p.name] = [c'.name, q.name]
          then q.meta.count (k, v) else 0) = (fun q : PropertyDef =>
          if c.name = c'.name then
            (if p.name = q.name then q.meta.count (k, v) else 0) else 0) from
        funext fun q =>
          (if_congr (by simp) rfl rfl).trans
            (ite_and (c.name = c'.name) (p.name = q.name) (q.meta.count (k, v)) 0)]
      exact sum_ite_const c'.props (c.name = c'.name) _
    rw [htrans, sum_if_single r.classes ClassDef.name _ c.name hw1 c hc rfl]
    exact sum_if_single c.props PropertyDef.name (fun q => q.meta.count (k, v))
      p.name (hw4 c hc) p hp rfl
  · intro e he w hw k v
    rw [count_metaLine_describe]
    have hclz : (r.classes.map (fun c => (c.props.map (fun q =>
        if [e.name, w.name] = [c.name, q.name] then q.meta.count (k, v) else 0)).sum)).sum
        = 0 := by
      apply List.sum_eq_zero
      intro x hx
      simp only [List.mem_map] at hx
      obtain ⟨c, hc, rfl⟩ := hx
      apply List.sum_eq_zero
      intro y hy
      simp only [List.mem_map] at hy
      obtain ⟨q, hq, rfl⟩ := hy
      rw [if_neg]
      intro hcon
      injection hcon with h1 _
      have hcm : c.name ∈ r.classes.map ClassDef.name := List.mem_map.mpr ⟨c, hc, rfl⟩
      have hem : e.name ∈ r.enums.map EnumDef.name := List.mem_map.mpr ⟨e, he, rfl⟩
      rw [h1] at hem
      exact hw3 c.name hcm hem
    rw [hclz, Nat.zero_add]
    have htrans : (fun e' : EnumDef => (e'.values.map (fun u =>
        if [e.name, w.name] = [e'.name, u.name] then u.meta.count (k, v) else 0)).sum) =
      (fun e' : EnumDef => if e.name = e'.name then
        (e'.values.map (fun u =>
          if w.name = u.name then u.meta.count (k, v) else 0)).sum else 0) := by
      funext e'
      rw [show (fun u : EnumValueDef => if [e.name, w.name] = [e'.name, u.name]
          then u.meta.count (k, v) else 0) = (fun u : EnumValueDef =>
          if e.name = e'.name then
            (if w.name = u.name then u.meta.count (k, v) else 0) else 0) from
        funext fun u =>
          (if_congr (by simp) rfl rfl).trans
            (ite_and (e.name = e'.name) (w.name = u.name) (u.meta.count (k, v)) 0)]
      exact sum_ite_const e'.values (e.name = e'.name) _
    rw [htrans, sum_if_single r.enums EnumDef.name _ e.name hw2 e he rfl]
    exact sum_if_single e.values EnumValueDef.name (fun u => u.meta.count (k, v))
      w.name (hw5 e he) w hw rfl

/-- Witness for C5 at the exact build sequence of `test_type_builder_str`. -/
theorem C5_witness :
    (∀ c ∈ testRegistry.classes,
        (describeEntries testRegistry).count (.classHeader c.name) = 1) ∧
    (∀ e ∈ testRegistry.enums,
        (describeEntries testRegistry).count (.enumHeader e.name) = 1) ∧
    (∀ c ∈ testRegistry.classes, ∀ p ∈ c.props,
        (describeEntries testRegistry).count (.propertyLine c.name p.name p.tyRef) = 1) ∧
    (∀ e ∈ testRegistry.enums, ∀ w ∈ e.values,
        (describeEntries testRegistry).count (.valueLine e.name w.name) = 1) ∧
    (∀ c ∈ testRegistry.classes, ∀ p ∈ c.props, ∀ k v,
        (describeEntries testRegistry).count (.metaLine [c.name, p.name] k v) =
          p.meta.count (k, v)) ∧
    (∀ e ∈ testRegistry.enums, ∀ w ∈ e.values, ∀ k v,
        (describeEntries testRegistry).count (.metaLine [e.name, w.name] k v) =
          w.meta.count (k, v)) ∧
    (describeEntries testRegistry).filterMap classHeaderName? =
      testRegistry.classes.map ClassDef.name ∧
    (describeEntries testRegistry).filterMap enumHeaderName? =
      testRegistry.enums.map EnumDef.name :=
  C5_describe_complete testBuildCmds testRegistry (by rfl)

end BamlSpec
